import Mathlib

/-!
Verification of the Obsidian vault link-graph analyzer (`analyzer.py` and the
vault-discovery loop shared with `core/analysis/engine.py`).

The development shallowly embeds the analyzer pipeline:

* `fetch_all_notes` — the breadth-first vault traversal (`analyzer.py`,
  `fetch_all_notes`), with the content source modelled as a pure function
  from a directory path to an optional list of directory entries (`none`
  models a failed HTTP listing) and an explicit fuel parameter standing for
  the number of loop iterations actually executed.
* `build_note_graph` — graph construction with two-tier wikilink resolution
  (`analyzer.py`, `build_note_graph`); fetching a note's text is modelled as
  a pure function from the note path to an optional string (`none` models a
  failed fetch).
* `analyze_graph` — degree classification, low-density analysis, the
  mention (untapped-potential) pass, and stub reporting (`analyzer.py`,
  `analyze_graph`).  The Aho-Corasick automaton is modelled by its
  observable semantics: a needle matches iff it occurs as a contiguous
  substring of the haystack.

Machine strings are Lean `String`s; Python `str.lower` is modelled with
ASCII case folding (`Char.toLower`), Python `str.split()` whitespace with
`Char.isWhitespace`, and Python floats with exact rationals (`Rat`,
division of two machine integers embedded as `mkRat`).
-/

/-! ## Character and string utilities (os.path helpers, str methods) -/

/-- Characters allowed inside a wikilink target: anything except the
display-text separator and the closing bracket (regex class from
`WIKILINK_RE = r"\[\[([^|\]]+)"`). -/
def linkChar (c : Char) : Bool :=
  decide (c ≠ '|') && decide (c ≠ ']')

/-- Python `str.split()` word counting: the number of maximal runs of
non-whitespace characters. -/
def countWordsAux : List Char → Bool → Nat
  | [], _ => 0
  | c :: rest, inWord =>
    if c.isWhitespace then countWordsAux rest false
    else (if inWord then 0 else 1) + countWordsAux rest true

/-- Word count of a string, Python `len(s.split())`. -/
def wordCount (s : String) : Nat :=
  countWordsAux s.toList false

/-- ASCII lower-casing, modelling Python `str.lower()`. -/
def lowerStr (s : String) : String :=
  String.mk (s.toList.map Char.toLower)

/-- Does `pat` occur at the start of `l`? -/
def leadsWith : List Char → List Char → Bool
  | [], _ => true
  | _ :: _, [] => false
  | a :: as, b :: bs => decide (a = b) && leadsWith as bs

/-- Does `pat` occur as a contiguous substring of `l`?  This is the
observable semantics of one Aho-Corasick pattern over a haystack. -/
def occursIn (pat : List Char) : List Char → Bool
  | [] => leadsWith pat []
  | l@(_ :: rest) => leadsWith pat l || occursIn pat rest

/-- Drop all trailing occurrences of `c`, Python `s.rstrip(c)` for a
single-character argument. -/
def dropTrailing (c : Char) (l : List Char) : List Char :=
  (l.reverse.dropWhile (fun x => decide (x = c))).reverse

/-- Python `path.rstrip('/')`. -/
def rstripSlashes (s : String) : String :=
  String.mk (dropTrailing '/' s.toList)

/-- The characters after the last path separator (`os.path.basename`). -/
def baseChars (l : List Char) : List Char :=
  (l.reverse.takeWhile (fun x => decide (x ≠ '/'))).reverse

/-- The characters up to and including the last path separator. -/
def dirChars (l : List Char) : List Char :=
  (l.reverse.dropWhile (fun x => decide (x ≠ '/'))).reverse

/-- Python `os.path.basename`. -/
def basenameOf (s : String) : String :=
  String.mk (baseChars s.toList)

/-- Stem of a single path component under Python `os.path.splitext`:
split at the last dot, except that a dot with only dots before it in the
component (a leading-dot file such as `".md"`) does not split. -/
def stemOfBase (base : List Char) : List Char :=
  let r := base.reverse
  let suf := r.takeWhile (fun x => decide (x ≠ '.'))
  if suf.length = r.length then base
  else
    let pre := (r.drop (suf.length + 1)).reverse
    if pre.any (fun x => decide (x ≠ '.')) then pre else base

/-- Python `os.path.splitext(p)[0]` on a full path. -/
def stemOfPath (s : String) : String :=
  String.mk (dirChars s.toList ++ stemOfBase (baseChars s.toList))

/-- Python `os.path.splitext(os.path.basename(p))[0]`: the "title" of a
note, and the key of the basename resolution map. -/
def titleOf (s : String) : String :=
  String.mk (stemOfBase (baseChars s.toList))

/-- Does `s` end with `suf`? (Python `str.endswith`.) -/
def endsWithStr (s suf : String) : Bool :=
  leadsWith suf.toList.reverse s.toList.reverse

/-- Replace every backslash by a forward slash,
Python `s.replace("\\", "/")`. -/
def slashify (s : String) : String :=
  String.mk (s.toList.map (fun c => if c = '\\' then '/' else c))

/-- POSIX `os.path.join(a, b)`: an absolute second component replaces the
first; joining onto the empty root keeps the component; otherwise a single
separator is inserted.  (The traversal only ever passes a first component
with no trailing slash.) -/
def joinPath (a b : String) : String :=
  match b.toList with
  | '/' :: _ => b
  | _ => if a = "" then b else a ++ "/" ++ b

/-- Lexicographic comparison of character lists by code point, the
ordering Python `sorted` applies to strings. -/
def charListLe : List Char → List Char → Bool
  | [], _ => true
  | _ :: _, [] => false
  | a :: as, b :: bs =>
    if a.val < b.val then true
    else if b.val < a.val then false
    else charListLe as bs

/-- Code-point comparison of strings. -/
def strLe (a b : String) : Bool :=
  charListLe a.toList b.toList

/-- Insert into a sorted list, keeping it sorted. -/
def insertSorted (x : String) : List String → List String
  | [] => [x]
  | y :: ys => if strLe x y then x :: y :: ys else y :: insertSorted x ys

/-- Lexicographic sort used for every report list (Python `sorted`):
insertion sort, whose result — the sorted permutation — is the unique
list any sorting of the same elements produces under the total order on
strings. -/
def sortStrings (l : List String) : List String :=
  l.foldr insertSorted []

theorem mem_insertSorted (a x : String) :
    ∀ l : List String, a ∈ insertSorted x l ↔ a = x ∨ a ∈ l := by
  intro l
  induction l with
  | nil => simp [insertSorted]
  | cons y ys ih =>
    simp only [insertSorted]
    split
    · simp
    · simp only [List.mem_cons, ih]
      tauto

theorem mem_sortStrings (a : String) (l : List String) :
    a ∈ sortStrings l ↔ a ∈ l := by
  unfold sortStrings
  induction l with
  | nil => simp
  | cons x xs ih =>
    simp only [List.foldr_cons, mem_insertSorted, List.mem_cons, ih]

/-- Last-wins association lookup: the value paired with the last occurrence
of key `k`, which is Python dict semantics when the dict is built by
repeated assignment. -/
def lastLookup (m : List (String × String)) (k : String) : Option String :=
  ((m.filter (fun e => decide (e.1 = k))).map (fun e => e.2)).getLast?

/-! ## Wikilink extraction (`WIKILINK_RE.findall`) -/

/-- `re.findall(r"\[\[([^|\]]+)", content)`: scan left to right; at an
occurrence of `[[` take the maximal non-empty run of characters that are
neither `|` nor `]`; a successful match is consumed whole (the scan resumes
after the run); a failed match attempt advances by one character.  No
closing `]]` is required. -/
def wfAux : Nat → List Char → List String
  | _, [] => []
  | 0, _ :: _ => []
  | Nat.succ f, a :: rest =>
    if a = '[' then
      match rest with
      | [] => []
      | b :: rest2 =>
        if b = '[' then
          let run := rest2.takeWhile linkChar
          if run.length = 0 then wfAux f (b :: rest2)
          else String.mk run :: wfAux f (rest2.drop run.length)
        else wfAux f (b :: rest2)
    else wfAux f rest

/-- The token list of the scan (`wfAux` with enough fuel to finish). -/
def wikilinkFindall (l : List Char) : List String :=
  wfAux l.length l

/-- The claim's per-occurrence rule at index `i`: if `[[` begins at `i`,
the token is the maximal non-empty run of non-`|`, non-`]` characters that
follows it; an empty run (or no `[[` at `i`) yields no token. -/
def matchAt (s : List Char) (i : Nat) : Option (List Char) :=
  if (s.drop i).take 2 = ['[', '['] then
    let run := (s.drop (i + 2)).takeWhile linkChar
    if run.length = 0 then none else some run
  else none

/-- Tokens of C9 as literally stated: one per occurrence of `[[` anywhere
in the text, including occurrences inside a run already matched. -/
def claimNineTokens (s : List Char) : List String :=
  ((List.range s.length).filterMap (matchAt s)).map String.mk

/-- Left-to-right scan from index `i` that applies the per-occurrence rule
and resumes after the end of each successful match. -/
def scanFrom (s : List Char) (i : Nat) : List String :=
  if _hi : s.length ≤ i then []
  else
    match matchAt s i with
    | some run => String.mk run :: scanFrom s (i + 2 + run.length)
    | none => scanFrom s (i + 1)
termination_by s.length - i
decreasing_by
  · omega
  · omega

/-! ## The directed graph (networkx.DiGraph as used by the analyzer) -/

/-- Attributes of one node: the `type` attribute (`"note"`, `"stub"`, or
`""` for a node created without attributes) and the optional `content`
attribute. -/
structure NodeData where
  ntype : String
  content : Option String
deriving DecidableEq, Repr

/-- A `networkx.DiGraph` as the analyzer uses it: insertion-ordered nodes
keyed by strings, and an insertion-ordered duplicate-free edge list
(`add_edge` on an existing pair is a no-op, a simple digraph). -/
structure VaultGraph where
  nodes : List (String × NodeData)
  edges : List (String × String)
deriving DecidableEq, Repr

/-- `graph.has_node(k)`. -/
def hasNode (g : VaultGraph) (k : String) : Bool :=
  g.nodes.any (fun e => decide (e.1 = k))

/-- `graph.add_node(k, type=t)`: creates the node or, when present,
updates its `type` attribute. -/
def addNode (g : VaultGraph) (k t : String) : VaultGraph :=
  if hasNode g k then
    { g with nodes := g.nodes.map (fun e => if e.1 = k then (e.1, { e.2 with ntype := t }) else e) }
  else
    { g with nodes := g.nodes ++ [(k, ⟨t, none⟩)] }

/-- `graph.nodes[k]['content'] = c`. -/
def setContent (g : VaultGraph) (k c : String) : VaultGraph :=
  { g with nodes := g.nodes.map (fun e => if e.1 = k then (e.1, { e.2 with content := some c }) else e) }

/-- `add_edge` creates missing endpoints as attribute-less nodes. -/
def ensureNode (g : VaultGraph) (k : String) : VaultGraph :=
  if hasNode g k then g else { g with nodes := g.nodes ++ [(k, ⟨"", none⟩)] }

/-- `graph.add_edge(u, v)`: endpoints are created if missing; a duplicate
edge is a no-op (simple digraph, no parallel edges). -/
def addEdge (g : VaultGraph) (u v : String) : VaultGraph :=
  let g2 := ensureNode (ensureNode g u) v
  if (u, v) ∈ g2.edges then g2 else { g2 with edges := g2.edges ++ [(u, v)] }

/-- `graph.out_degree(d)` computed over an edge list. -/
def outDegE (edges : List (String × String)) (d : String) : Nat :=
  (edges.filter (fun e => decide (e.1 = d))).length

/-- `graph.in_degree(d)` computed over an edge list. -/
def inDegE (edges : List (String × String)) (d : String) : Nat :=
  (edges.filter (fun e => decide (e.2 = d))).length

/-! ## Link resolution and graph construction (`build_note_graph`) -/

/-- The exact-path map `full_path_map` (stem of the full path, dict
last-assignment-wins) queried at token `t`. -/
def pathLookup (files : List String) (t : String) : Option String :=
  lastLookup (files.map (fun p => (stemOfPath p, p))) t

/-- The basename map `basename_map` (lists in file order) queried at token
`t`: the list of files whose basename-stem is `t`, in discovery order. -/
def basenameList (files : List String) (t : String) : List String :=
  files.filter (fun p => decide (titleOf p = t))

/-- Two-tier, case-sensitive resolution of one wikilink token: first the
exact-path map, then the first entry of the basename map; `none` when both
miss (the token is unresolved and will be linked as a stub label). -/
def resolveToken (files : List String) (t : String) : Option String :=
  match pathLookup files t with
  | some p => some p
  | none => (basenameList files t).head?

/-- The stub branch of link resolution: `if not graph.has_node(link):
graph.add_node(link, type="stub")` — get-or-create keyed by the verbatim
token text. -/
def stubEnsure (g : VaultGraph) (t : String) : VaultGraph :=
  if hasNode g t then g else { g with nodes := g.nodes ++ [(t, ⟨"stub", none⟩)] }

/-- Process the extracted tokens of note `d` in order: a resolved token
adds an edge to the resolved note; an unresolved token gets a `"stub"`
node created unless a node with that exact key already exists, then an
edge to the verbatim token key. -/
def processTokens (files : List String) (d : String) (g : VaultGraph) : List String → VaultGraph
  | [] => g
  | t :: ts =>
    let g2 :=
      match resolveToken files t with
      | some tp => addEdge g d tp
      | none => addEdge (stubEnsure g t) d t
    processTokens files d g2 ts

/-- Phase 1 of `build_note_graph`: one `"note"` node per file. -/
def addAllNotes (files : List String) : VaultGraph :=
  files.foldl (fun g p => addNode g p "note") ⟨[], []⟩

/-- Phase 2 step for one note: a failed fetch (`none`) leaves the graph
untouched; a successful fetch stores the text and links every extracted
token. -/
def buildStep (files : List String) (contents : String → Option String)
    (g : VaultGraph) (p : String) : VaultGraph :=
  match contents p with
  | none => g
  | some c => processTokens files p (setContent g p c) (wikilinkFindall c.toList)

/-- `build_note_graph(session, api_url, markdown_files, timeout)` with the
per-note fetch modelled by `contents`. -/
def build_note_graph (files : List String) (contents : String → Option String) : VaultGraph :=
  files.foldl (buildStep files contents) (addAllNotes files)

/-! ## Graph analysis (`analyze_graph`) -/

/-- Projection of one node to what `analyze_graph` can observe: the key,
the `type` attribute, and `node.get('content', '')`. -/
structure PNode where
  key : String
  ntype : String
  text : String
deriving DecidableEq, Repr

/-- Observable projection of the node list. -/
def projNode (e : String × NodeData) : PNode :=
  ⟨e.1, e.2.ntype, e.2.content.getD ""⟩

/-- The note keys, in node insertion order. -/
def noteKeys (pnodes : List PNode) : List String :=
  (pnodes.filter (fun p => decide (p.ntype = "note"))).map (fun p => p.key)

/-- The stub keys, in node insertion order. -/
def stubKeys (pnodes : List PNode) : List String :=
  (pnodes.filter (fun p => decide (p.ntype = "stub"))).map (fun p => p.key)

/-- `graph.nodes[d].get('content', '')` (also `''` for an absent node). -/
def textOf (pnodes : List PNode) (d : String) : String :=
  ((pnodes.find? (fun p => decide (p.key = d))).map (fun p => p.text)).getD ""

/-- `all_titles`, deduplicated as a Python set; the insertion-order dedup
is a deterministic stand-in for the set's unspecified iteration order. -/
def titlesList (pnodes : List PNode) : List String :=
  ((noteKeys pnodes).map titleOf).dedup

/-- `(title.lower(), title)` pairs in title order, before dict collapse. -/
def lowerPairs (pnodes : List PNode) : List (String × String) :=
  (titlesList pnodes).map (fun t => (lowerStr t, t))

/-- `lower_to_canonical_map` as the Aho-Corasick automaton sees it: one
entry per distinct lowercased title, mapping to the canonical title that
won the dict assignment (the last one). -/
def autoPairs (pnodes : List PNode) : List (String × String) :=
  (((lowerPairs pnodes).map (fun e => e.1)).dedup).map
    (fun k => (k, (lastLookup (lowerPairs pnodes) k).getD ""))

/-- `found_titles` for one text: canonical titles whose lowercased form
occurs as a substring of the lowercased text.  The automaton never holds
an empty needle (`add_word("")` does not add a word). -/
def foundTitles (pnodes : List PNode) (text : String) : List String :=
  ((autoPairs pnodes).filter
    (fun kv => decide (kv.1 ≠ "") && occursIn kv.1.toList (lowerStr text).toList)).map
    (fun kv => kv.2)

/-- Titles of the targets of the outbound edges of `d`
(`existing_link_titles`). -/
def linkTitles (edges : List (String × String)) (d : String) : List String :=
  ((edges.filter (fun e => decide (e.1 = d))).map (fun e => e.2)).map titleOf

/-- `potential_new_links` for one note, before sorting: found titles minus
existing outbound target titles minus the note's own title; empty when the
note's text is empty or was never fetched. -/
def mentionsFor (pnodes : List PNode) (edges : List (String × String)) (d : String) : List String :=
  let text := textOf pnodes d
  if text = "" then []
  else (foundTitles pnodes text).filter
    (fun t => decide (t ∉ linkTitles edges d) && decide (t ≠ titleOf d))

/-- `untapped_potential`: one entry per note with a non-empty candidate
set, keyed by the note, candidates sorted. -/
def untappedList (pnodes : List PNode) (edges : List (String × String)) : List (String × List String) :=
  (noteKeys pnodes).filterMap (fun d =>
    let m := mentionsFor pnodes edges d
    if m.isEmpty then none else some (d, sortStrings m))

/-- The record returned by `analyze_graph`. -/
structure AnalysisResult where
  total_notes : Nat
  total_links : Nat
  orphans : List String
  hubs : List String
  dead_ends : List String
  low_density_notes : List String
  untapped_potential : List (String × List String)
  stubs : List String
  stub_sources : List (String × List String)
deriving DecidableEq, Repr

/-- `analyze_graph` over the observable projection of a graph. -/
def analyzeCore (pnodes : List PNode) (edges : List (String × String))
    (hubThreshold : Nat) (densityThreshold : Rat) (minWordCount : Nat) : AnalysisResult :=
  let notes := noteKeys pnodes
  let stubs := stubKeys pnodes
  { total_notes := notes.length
    total_links := edges.length
    orphans := sortStrings (notes.filter (fun n => decide (inDegE edges n = 0)))
    hubs := sortStrings (notes.filter (fun n => decide (hubThreshold ≤ outDegE edges n)))
    dead_ends := sortStrings (notes.filter
      (fun n => decide (outDegE edges n = 0) && decide (0 < inDegE edges n)))
    low_density_notes := sortStrings (notes.filter (fun n =>
      let wc := wordCount (textOf pnodes n)
      decide (minWordCount ≤ wc) && decide (0 < wc) &&
        decide (mkRat (outDegE edges n) wc < densityThreshold)))
    untapped_potential := untappedList pnodes edges
    stubs := sortStrings stubs
    stub_sources := stubs.map (fun s =>
      (s, sortStrings ((edges.filter (fun e => decide (e.2 = s))).map (fun e => e.1)))) }

/-- `analyze_graph(graph, hub_threshold, link_density_threshold,
min_word_count)`. -/
def analyze_graph (g : VaultGraph) (hubThreshold : Nat) (densityThreshold : Rat)
    (minWordCount : Nat) : AnalysisResult :=
  analyzeCore (g.nodes.map projNode) g.edges hubThreshold densityThreshold minWordCount

/-! ## Vault discovery (`fetch_all_notes`) -/

/-- One directory listing: fold the returned item names into the pair
(subdirectories to enqueue, markdown files found), in item order.  An item
becoming `full = os.path.join(cur, item).replace("\\", "/")` is a
directory when it ends in `/` (enqueued with trailing slashes stripped)
and a note when it ends in `.md`. -/
def processItems (cur : String) (items : List String) : List String × List String :=
  items.foldl
    (fun acc item =>
      let full := slashify (joinPath cur item)
      if endsWithStr full "/" then (acc.1 ++ [rstripSlashes full], acc.2)
      else if endsWithStr full ".md" then (acc.1, acc.2 ++ [full])
      else acc)
    ([], [])

/-- Add each of `new` to the markdown-file set `files` (Python `set.add`),
keeping first-insertion order. -/
def insertAll (files : List String) (new : List String) : List String :=
  new.foldl (fun acc f => if f ∈ acc then acc else acc ++ [f]) files

/-- The subdirectories contributed by listing directory `d` (empty when
the listing request fails). -/
def subdirsOf (listing : String → Option (List String)) (d : String) : List String :=
  match listing d with
  | none => []
  | some items => (processItems d items).1

/-- The `while dirs_to_scan:` loop of `fetch_all_notes`.  State: the
queue, the `scanned_dirs` set kept as the insertion-ordered list of
directories whose listing was requested (it doubles as the trace of
listing invocations), and the markdown-file set.  `fuel` bounds the number
of iterations; the first component is `none` iff the fuel ran out, and
the trace is returned in either case.  A failed listing (`none` from the
content source) is logged and skipped in the source; here it contributes
nothing. -/
def scanLoop (listing : String → Option (List String)) :
    Nat → List String → List String → List String → Option (List String) × List String
  | _, [], scanned, files => (some files, scanned)
  | 0, _ :: _, scanned, _ => (none, scanned)
  | Nat.succ f, d :: rest, scanned, files =>
    if d ∈ scanned then scanLoop listing f rest scanned files
    else
      let scanned2 := scanned ++ [d]
      match listing d with
      | none => scanLoop listing f rest scanned2 files
      | some items =>
        scanLoop listing f (rest ++ (processItems d items).1) scanned2
          (insertAll files (processItems d items).2)

/-- Result of `fetch_all_notes`: either the clean `sys.exit(0)` taken when
no markdown file was found, or the sorted file list handed to the rest of
the pipeline. -/
inductive FetchRes where
  | exitZero : FetchRes
  | ok : List String → FetchRes
deriving DecidableEq, Repr

/-- `fetch_all_notes(session, api_url, timeout)` with the content source
modelled by `listing` and the loop bounded by `fuel` (`none` = the model
ran out of fuel, which a real run never reports). -/
def fetch_all_notes (listing : String → Option (List String)) (fuel : Nat) : Option FetchRes :=
  match scanLoop listing fuel [""] [] [] with
  | (none, _) => none
  | (some files, _) =>
    some (if files.isEmpty then FetchRes.exitZero else FetchRes.ok (sortStrings files))

/-! ## C9: wikilink extraction semantics -/

theorem matchAt_cons_succ (c : Char) (s : List Char) (i : Nat) :
    matchAt (c :: s) (i + 1) = matchAt s i := by
  have h1 : (c :: s).drop (i + 1) = s.drop i := by
    simp [List.drop_succ_cons]
  have h2 : (c :: s).drop (i + 1 + 2) = s.drop (i + 2) := by
    have : i + 1 + 2 = (i + 2) + 1 := by omega
    rw [this]
    simp [List.drop_succ_cons]
  simp only [matchAt, h1, h2]

theorem scanFrom_shift (c : Char) (s : List Char) (i : Nat) :
    scanFrom (c :: s) (i + 1) = scanFrom s i := by
  have H : ∀ n i, s.length - i ≤ n → scanFrom (c :: s) (i + 1) = scanFrom s i := by
    intro n
    induction n with
    | zero =>
      intro i h
      have hle : s.length ≤ i := by omega
      have hle2 : (c :: s).length ≤ i + 1 := by simp only [List.length_cons]; omega
      conv_lhs => rw [scanFrom]
      conv_rhs => rw [scanFrom]
      rw [dif_pos hle2, dif_pos hle]
    | succ n ih =>
      intro i h
      by_cases hle : s.length ≤ i
      · have hle2 : (c :: s).length ≤ i + 1 := by simp only [List.length_cons]; omega
        conv_lhs => rw [scanFrom]
        conv_rhs => rw [scanFrom]
        rw [dif_pos hle2, dif_pos hle]
      · have hle2 : ¬ (c :: s).length ≤ i + 1 := by simp only [List.length_cons]; omega
        conv_lhs => rw [scanFrom]
        conv_rhs => rw [scanFrom]
        rw [dif_neg hle2, dif_neg hle, matchAt_cons_succ]
        cases hm : matchAt s i with
        | none =>
          simp only
          exact ih (i + 1) (by omega)
        | some run =>
          simp only
          have h3 : i + 1 + 2 + run.length = (i + 2 + run.length) + 1 := by omega
          rw [h3, ih (i + 2 + run.length) (by omega)]
  exact H (s.length - i) i (Nat.le_refl _)

theorem scanFrom_drop (k : Nat) (s : List Char) :
    scanFrom s k = scanFrom (s.drop k) 0 := by
  induction k generalizing s with
  | zero => rw [List.drop_zero]
  | succ k ih =>
    cases s with
    | nil =>
      rw [List.drop_nil, scanFrom, dif_pos (by simp)]
      rw [scanFrom, dif_pos (by simp)]
    | cons c s2 =>
      rw [List.drop_succ_cons, scanFrom_shift, ih]

theorem scanFrom_nil (i : Nat) : scanFrom [] i = [] := by
  rw [scanFrom, dif_pos (by simp)]

theorem scanFrom_cons_none (a : Char) (rest : List Char)
    (hm : matchAt (a :: rest) 0 = none) :
    scanFrom (a :: rest) 0 = scanFrom rest 0 := by
  rw [scanFrom, dif_neg (by simp), hm]
  exact scanFrom_shift a rest 0

theorem scanFrom_cons_some (a : Char) (rest run : List Char)
    (hm : matchAt (a :: rest) 0 = some run) :
    scanFrom (a :: rest) 0 = String.mk run :: scanFrom ((a :: rest).drop (2 + run.length)) 0 := by
  rw [scanFrom, dif_neg (by simp), hm]
  simp only
  rw [show 0 + 2 + run.length = 2 + run.length by omega, scanFrom_drop]

theorem wfAux_nil (f : Nat) : wfAux f [] = [] := by
  cases f <;> rfl

theorem wfAux_succ_cons (f : Nat) (a : Char) (rest : List Char) :
    wfAux (Nat.succ f) (a :: rest) =
      (if a = '[' then
        match rest with
        | [] => []
        | b :: rest2 =>
          if b = '[' then
            let run := rest2.takeWhile linkChar
            if run.length = 0 then wfAux f (b :: rest2)
            else String.mk run :: wfAux f (rest2.drop run.length)
          else wfAux f (b :: rest2)
      else wfAux f rest) := rfl

theorem wfAux_congr : ∀ (f g : Nat) (l : List Char),
    l.length ≤ f → l.length ≤ g → wfAux f l = wfAux g l := by
  intro f
  induction f with
  | zero =>
    intro g l hf hg
    have hl : l = [] := List.eq_nil_of_length_eq_zero (by omega)
    subst hl
    rw [wfAux_nil, wfAux_nil]
  | succ f ih =>
    intro g l hf hg
    cases l with
    | nil => rw [wfAux_nil, wfAux_nil]
    | cons a rest =>
      cases g with
      | zero => simp at hg
      | succ g2 =>
        simp only [List.length_cons] at hf hg
        cases rest with
        | nil =>
          by_cases ha : a = '['
          · simp only [wfAux, if_pos ha]
          · simp only [wfAux, if_neg ha]
        | cons b rest2 =>
          simp only [List.length_cons] at hf hg
          by_cases ha : a = '['
          · by_cases hb : b = '['
            · by_cases hz : (rest2.takeWhile linkChar).length = 0
              · simp only [wfAux, if_pos ha, if_pos hb, hz, ite_true]
                exact ih g2 (b :: rest2) (by simp only [List.length_cons]; omega)
                  (by simp only [List.length_cons]; omega)
              · simp only [wfAux, if_pos ha, if_pos hb, hz, ite_false]
                have hd := List.length_drop (rest2.takeWhile linkChar).length rest2
                rw [ih g2 (rest2.drop (rest2.takeWhile linkChar).length)
                  (by omega) (by omega)]
            · simp only [wfAux, if_pos ha, if_neg hb]
              exact ih g2 (b :: rest2) (by simp only [List.length_cons]; omega)
                (by simp only [List.length_cons]; omega)
          · simp only [wfAux, if_neg ha]
            exact ih g2 (b :: rest2) (by simp only [List.length_cons]; omega)
              (by simp only [List.length_cons]; omega)

theorem wikilinkFindall_nil : wikilinkFindall [] = [] := rfl

theorem wikilinkFindall_single_open : wikilinkFindall ['['] = [] := by decide

theorem wikilinkFindall_not_open (a : Char) (rest : List Char) (ha : ¬ a = '[') :
    wikilinkFindall (a :: rest) = wikilinkFindall rest := by
  show wfAux (Nat.succ rest.length) (a :: rest) = wfAux rest.length rest
  rw [wfAux_succ_cons, if_neg ha]

theorem wikilinkFindall_half_open (b : Char) (rest2 : List Char) (hb : ¬ b = '[') :
    wikilinkFindall ('[' :: b :: rest2) = wikilinkFindall (b :: rest2) := by
  show wfAux (Nat.succ (Nat.succ rest2.length)) ('[' :: b :: rest2)
    = wfAux (b :: rest2).length (b :: rest2)
  rw [wfAux_succ_cons, if_pos rfl]
  simp only [if_neg hb, List.length_cons]

theorem wikilinkFindall_empty_run (rest2 : List Char)
    (hz : (rest2.takeWhile linkChar).length = 0) :
    wikilinkFindall ('[' :: '[' :: rest2) = wikilinkFindall ('[' :: rest2) := by
  show wfAux (Nat.succ (Nat.succ rest2.length)) ('[' :: '[' :: rest2)
    = wfAux ('[' :: rest2).length ('[' :: rest2)
  rw [wfAux_succ_cons, if_pos rfl]
  simp only [if_pos rfl, hz, ite_true, List.length_cons]

theorem wikilinkFindall_token (rest2 : List Char)
    (hz : ¬ (rest2.takeWhile linkChar).length = 0) :
    wikilinkFindall ('[' :: '[' :: rest2) =
      String.mk (rest2.takeWhile linkChar)
        :: wikilinkFindall (rest2.drop (rest2.takeWhile linkChar).length) := by
  show wfAux (Nat.succ (Nat.succ rest2.length)) ('[' :: '[' :: rest2)
    = String.mk (rest2.takeWhile linkChar)
        :: wfAux (rest2.drop (rest2.takeWhile linkChar).length).length
          (rest2.drop (rest2.takeWhile linkChar).length)
  rw [wfAux_succ_cons, if_pos rfl]
  simp only [if_pos rfl, hz, ite_false, if_true]
  congr 1
  have hd := List.length_drop (rest2.takeWhile linkChar).length rest2
  exact wfAux_congr (rest2.length + 1)
    (rest2.drop (rest2.takeWhile linkChar).length).length
    (rest2.drop (rest2.takeWhile linkChar).length) (by omega) (Nat.le_refl _)

/-- The left-to-right findall scan agrees with the per-occurrence rule
applied at every index not consumed by an earlier match. -/
theorem wikilinkFindall_eq_scanFrom : ∀ l : List Char, wikilinkFindall l = scanFrom l 0 := by
  have H : ∀ n (l : List Char), l.length ≤ n → wikilinkFindall l = scanFrom l 0 := by
    intro n
    induction n with
    | zero =>
      intro l h
      have hl : l = [] := List.eq_nil_of_length_eq_zero (by omega)
      subst hl
      rw [wikilinkFindall_nil, scanFrom_nil]
    | succ n ih =>
      intro l h
      cases l with
      | nil => rw [wikilinkFindall_nil, scanFrom_nil]
      | cons a rest =>
        by_cases ha : a = '['
        · subst ha
          cases rest with
          | nil =>
            rw [wikilinkFindall_single_open,
              scanFrom_cons_none '[' [] (by decide), scanFrom_nil]
          | cons b rest2 =>
            by_cases hb : b = '['
            · subst hb
              by_cases hz : (rest2.takeWhile linkChar).length = 0
              · rw [wikilinkFindall_empty_run rest2 hz,
                  scanFrom_cons_none _ _ (by simp [matchAt, hz])]
                exact ih ('[' :: rest2) (by simp only [List.length_cons] at h ⊢; omega)
              · rw [wikilinkFindall_token rest2 hz,
                  scanFrom_cons_some '[' ('[' :: rest2) (rest2.takeWhile linkChar)
                    (by simp [matchAt, hz])]
                congr 1
                have hdrop : ('[' :: '[' :: rest2).drop (2 + (rest2.takeWhile linkChar).length)
                    = rest2.drop (rest2.takeWhile linkChar).length := by
                  rw [show 2 + (rest2.takeWhile linkChar).length
                      = ((rest2.takeWhile linkChar).length + 1) + 1 by omega]
                  simp [List.drop_succ_cons]
                rw [hdrop]
                refine ih (rest2.drop (rest2.takeWhile linkChar).length) ?_
                have := List.length_drop (rest2.takeWhile linkChar).length rest2
                simp only [List.length_cons] at h
                omega
            · rw [wikilinkFindall_half_open b rest2 hb,
                scanFrom_cons_none _ _ (by simp [matchAt, hb])]
              exact ih (b :: rest2) (by simp only [List.length_cons] at h ⊢; omega)
        · rw [wikilinkFindall_not_open a rest ha,
            scanFrom_cons_none _ _ (by simp [matchAt, ha])]
          exact ih rest (by simp only [List.length_cons] at h; omega)
  intro l
  exact H l.length l (Nat.le_refl _)

/-- C9 counterexample: in `"[[a[[b"` the `[[` at index 3 lies inside the
run matched at index 0, so findall returns only `"a[[b"`, while the claim
(one token per occurrence of `[[`) demands the extra token `"b"`. -/
theorem claim_C9_counterexample :
    wikilinkFindall "[[a[[b".toList = ["a[[b"] ∧
    claimNineTokens "[[a[[b".toList = ["a[[b", "b"] ∧
    (["a[[b"] : List String) ≠ ["a[[b", "b"] := by
  refine ⟨by decide, by decide, by decide⟩

/-- C9 (amended): extraction scans left to right and applies the claim's
per-occurrence rule (`matchAt`: at an occurrence of `[[`, the maximal
non-empty run of characters that are neither `|` nor `]`; no closing `]]`
required; an occurrence directly followed by `|` or `]` yields no token)
only at indices not consumed by a previous match: a successful match is
consumed whole and the scan resumes after its run.  In addition, the
concrete behaviors named by the claim hold: `"[[Foo"` with no closing
brackets yields `"Foo"`, and `[[` immediately followed by `|` or `]`
yields nothing. -/
theorem claim_C9_amended :
    (∀ l : List Char, wikilinkFindall l = scanFrom l 0) ∧
    wikilinkFindall "[[Foo".toList = ["Foo"] ∧
    wikilinkFindall "[[|x".toList = [] ∧
    wikilinkFindall "[[]x".toList = [] := by
  refine ⟨wikilinkFindall_eq_scanFrom, by decide, by decide, by decide⟩

/-! ## C1: duplicate links and the simple digraph -/

theorem ensureNode_edges (g : VaultGraph) (k : String) : (ensureNode g k).edges = g.edges := by
  unfold ensureNode
  split <;> rfl

theorem addNode_edges (g : VaultGraph) (k t : String) : (addNode g k t).edges = g.edges := by
  unfold addNode
  split <;> rfl

theorem setContent_edges (g : VaultGraph) (k c : String) : (setContent g k c).edges = g.edges := rfl

theorem addEdge_eqA (g : VaultGraph) (u v : String) :
    addEdge g u v =
      (if (u, v) ∈ (ensureNode (ensureNode g u) v).edges
       then ensureNode (ensureNode g u) v
       else { ensureNode (ensureNode g u) v with
              edges := (ensureNode (ensureNode g u) v).edges ++ [(u, v)] }) := rfl

theorem addEdge_edges_nodup (g : VaultGraph) (u v : String) (h : g.edges.Nodup) :
    (addEdge g u v).edges.Nodup := by
  rw [addEdge_eqA]
  split
  · rw [ensureNode_edges, ensureNode_edges]
    exact h
  · rename_i hmem
    rw [ensureNode_edges, ensureNode_edges] at hmem ⊢
    simp only [List.nodup_append, List.nodup_cons, List.nodup_nil]
    exact ⟨h, ⟨by simp, trivial⟩, by
      intro x hx hx2
      simp only [List.mem_singleton] at hx2
      subst hx2
      exact hmem hx⟩

theorem processTokens_edges_nodup (files : List String) (d : String) :
    ∀ (ts : List String) (g : VaultGraph), g.edges.Nodup → (processTokens files d g ts).edges.Nodup := by
  intro ts
  induction ts with
  | nil => intro g h; exact h
  | cons t ts ih =>
    intro g h
    simp only [processTokens]
    cases hr : resolveToken files t with
    | some tp =>
      simp only
      exact ih _ (addEdge_edges_nodup _ _ _ h)
    | none =>
      simp only
      refine ih _ (addEdge_edges_nodup _ _ _ ?_)
      unfold stubEnsure
      split <;> exact h

theorem build_note_graph_edges_nodup (files : List String) (contents : String → Option String) :
    (build_note_graph files contents).edges.Nodup := by
  unfold build_note_graph
  have h0 : (addAllNotes files).edges.Nodup := by
    have : ∀ (fs : List String) (g : VaultGraph), g.edges.Nodup
        → (fs.foldl (fun g p => addNode g p "note") g).edges.Nodup := by
      intro fs
      induction fs with
      | nil => intro g h; exact h
      | cons p fs ih =>
        intro g h
        refine ih _ ?_
        rw [addNode_edges]
        exact h
    exact this files ⟨[], []⟩ List.nodup_nil
  have hstep : ∀ (fs : List String) (g : VaultGraph), g.edges.Nodup
      → (fs.foldl (buildStep files contents) g).edges.Nodup := by
    intro fs
    induction fs with
    | nil => intro g h; exact h
    | cons p fs ih =>
      intro g h
      refine ih _ ?_
      unfold buildStep
      cases contents p with
      | none => exact h
      | some c =>
        simp only
        refine processTokens_edges_nodup files p _ _ ?_
        rw [setContent_edges]
        exact h
  exact hstep files _ h0

theorem hasNode_ensureNode_self (g : VaultGraph) (k : String) : hasNode (ensureNode g k) k = true := by
  unfold ensureNode
  split
  · assumption
  · simp [hasNode]

theorem hasNode_ensureNode_mono (g : VaultGraph) (k k2 : String) (h : hasNode g k = true) :
    hasNode (ensureNode g k2) k = true := by
  unfold ensureNode
  split
  · exact h
  · simp only [hasNode, List.any_append, List.any_cons, List.any_nil, Bool.or_eq_true]
    left
    exact h

theorem ensureNode_of_hasNode (g : VaultGraph) (k : String) (h : hasNode g k = true) :
    ensureNode g k = g := by
  unfold ensureNode
  rw [if_pos h]

theorem hasNode_edges_irrel (g : VaultGraph) (es : List (String × String)) (k : String) :
    hasNode { g with edges := es } k = hasNode g k := rfl

theorem addEdge_absorb (r : VaultGraph) (u v : String)
    (hu : hasNode r u = true) (hv : hasNode r v = true) (hm : (u, v) ∈ r.edges) :
    addEdge r u v = r := by
  rw [addEdge_eqA, ensureNode_of_hasNode r u hu, ensureNode_of_hasNode r v hv, if_pos hm]

/-- `add_edge` on an already-present edge leaves the graph unchanged. -/
theorem addEdge_idem (g : VaultGraph) (u v : String) :
    addEdge (addEdge g u v) u v = addEdge g u v := by
  have hu : hasNode (addEdge g u v) u = true := by
    rw [addEdge_eqA]
    split
    · exact hasNode_ensureNode_mono _ _ _ (hasNode_ensureNode_self _ _)
    · rw [hasNode_edges_irrel]
      exact hasNode_ensureNode_mono _ _ _ (hasNode_ensureNode_self _ _)
  have hv : hasNode (addEdge g u v) v = true := by
    rw [addEdge_eqA]
    split
    · exact hasNode_ensureNode_self _ _
    · rw [hasNode_edges_irrel]
      exact hasNode_ensureNode_self _ _
  have hmem : (u, v) ∈ (addEdge g u v).edges := by
    rw [addEdge_eqA]
    split
    · assumption
    · simp
  exact addEdge_absorb _ u v hu hv hmem

/-- C1 counterexample: `A.md` contains the duplicate links
`[[B]] [[B]]`, both resolving to `B.md`; the graph is a simple digraph,
so only one edge `(A.md, B.md)` exists: the reported total link count is
1 (the claim demands 2), `A.md`'s out-degree is 1 and `B.md`'s in-degree
is 1 (the claim demands 2 for each). -/
theorem claim_C1_counterexample :
    wikilinkFindall "[[B]] [[B]]".toList = ["B", "B"] ∧
    resolveToken ["A.md", "B.md"] "B" = some "B.md" ∧
    (analyze_graph
        (build_note_graph ["A.md", "B.md"]
          (fun p => if p = "A.md" then some "[[B]] [[B]]" else some ""))
        2 (1 / 10 : Rat) 1).total_links = 1 ∧
    outDegE (build_note_graph ["A.md", "B.md"]
        (fun p => if p = "A.md" then some "[[B]] [[B]]" else some "")).edges "A.md" = 1 ∧
    inDegE (build_note_graph ["A.md", "B.md"]
        (fun p => if p = "A.md" then some "[[B]] [[B]]" else some "")).edges "B.md" = 1 ∧
    (1 : Nat) ≠ 2 := by
  refine ⟨by decide, by decide, by decide, by decide, by decide, by decide⟩

/-- C1 (amended): duplicate wikilinks between the same ordered
(source, target) pair collapse into a single edge — re-adding an existing
edge leaves the graph unchanged, the edge list of every built graph is
duplicate-free, the reported total link count is the number of distinct
(source, target) pairs, and each distinct pair contributes exactly once to
the source's out-degree and the target's in-degree. -/
theorem claim_C1_amended (files : List String) (contents : String → Option String)
    (hub : Nat) (θ : Rat) (m : Nat) :
    (build_note_graph files contents).edges.Nodup ∧
    (analyze_graph (build_note_graph files contents) hub θ m).total_links
      = (build_note_graph files contents).edges.length ∧
    (∀ d, outDegE (build_note_graph files contents).edges d
      = (((build_note_graph files contents).edges.filter
          (fun e => decide (e.1 = d))).dedup).length) ∧
    (∀ d, inDegE (build_note_graph files contents).edges d
      = (((build_note_graph files contents).edges.filter
          (fun e => decide (e.2 = d))).dedup).length) ∧
    (∀ u v, addEdge (addEdge (build_note_graph files contents) u v) u v
      = addEdge (build_note_graph files contents) u v) := by
  have hnd := build_note_graph_edges_nodup files contents
  refine ⟨hnd, rfl, ?_, ?_, fun u v => addEdge_idem _ u v⟩
  · intro d
    rw [List.Nodup.dedup (List.Nodup.filter _ hnd)]
    rfl
  · intro d
    rw [List.Nodup.dedup (List.Nodup.filter _ hnd)]
    rfl

/-! ## C5: orphan and dead-end classification -/

theorem mem_orphans_iff (g : VaultGraph) (hub : Nat) (θ : Rat) (m : Nat) (d : String) :
    d ∈ (analyze_graph g hub θ m).orphans
      ↔ d ∈ noteKeys (g.nodes.map projNode) ∧ inDegE g.edges d = 0 := by
  simp [analyze_graph, analyzeCore, mem_sortStrings, List.mem_filter]

theorem mem_dead_ends_iff (g : VaultGraph) (hub : Nat) (θ : Rat) (m : Nat) (d : String) :
    d ∈ (analyze_graph g hub θ m).dead_ends
      ↔ d ∈ noteKeys (g.nodes.map projNode)
          ∧ outDegE g.edges d = 0 ∧ 0 < inDegE g.edges d := by
  simp [analyze_graph, analyzeCore, mem_sortStrings, List.mem_filter, and_assoc]

/-- C5: a document node is an orphan iff its in-degree is 0; it is a
dead-end iff its out-degree is 0 and its in-degree is positive; the two
sets are disjoint; and a document with zero in- and out-degree is an
orphan and not a dead-end. -/
theorem claim_C5 (g : VaultGraph) (hub : Nat) (θ : Rat) (m : Nat) (d : String) :
    (d ∈ (analyze_graph g hub θ m).orphans
      ↔ d ∈ noteKeys (g.nodes.map projNode) ∧ inDegE g.edges d = 0) ∧
    (d ∈ (analyze_graph g hub θ m).dead_ends
      ↔ d ∈ noteKeys (g.nodes.map projNode)
          ∧ outDegE g.edges d = 0 ∧ 0 < inDegE g.edges d) ∧
    ¬ (d ∈ (analyze_graph g hub θ m).orphans ∧ d ∈ (analyze_graph g hub θ m).dead_ends) ∧
    (d ∈ noteKeys (g.nodes.map projNode) ∧ inDegE g.edges d = 0 ∧ outDegE g.edges d = 0
      → d ∈ (analyze_graph g hub θ m).orphans ∧ d ∉ (analyze_graph g hub θ m).dead_ends) := by
  refine ⟨mem_orphans_iff g hub θ m d, mem_dead_ends_iff g hub θ m d, ?_, ?_⟩
  · intro ⟨h1, h2⟩
    rw [mem_orphans_iff] at h1
    rw [mem_dead_ends_iff] at h2
    omega
  · intro ⟨h1, h2, h3⟩
    constructor
    · exact (mem_orphans_iff g hub θ m d).mpr ⟨h1, h2⟩
    · intro h4
      rw [mem_dead_ends_iff] at h4
      omega

/-- C5 at a concrete graph: `A.md` links to `B.md`; `A.md` (in-degree 0)
is an orphan, `B.md` (out-degree 0, in-degree 1) is a dead-end. -/
theorem claim_C5_witness :
    "A.md" ∈ (analyze_graph
        (build_note_graph ["A.md", "B.md"]
          (fun p => if p = "A.md" then some "[[B]]" else some ""))
        2 (1 / 10 : Rat) 1).orphans ∧
    "B.md" ∈ (analyze_graph
        (build_note_graph ["A.md", "B.md"]
          (fun p => if p = "A.md" then some "[[B]]" else some ""))
        2 (1 / 10 : Rat) 1).dead_ends := by
  have h1 := claim_C5 (build_note_graph ["A.md", "B.md"]
    (fun p => if p = "A.md" then some "[[B]]" else some "")) 2 (1 / 10 : Rat) 1 "A.md"
  have h2 := claim_C5 (build_note_graph ["A.md", "B.md"]
    (fun p => if p = "A.md" then some "[[B]]" else some "")) 2 (1 / 10 : Rat) 1 "B.md"
  exact ⟨h1.1.mpr (by decide), h2.2.1.mpr (by decide)⟩

/-! ## C6: low link density -/

theorem mem_low_density_iff (g : VaultGraph) (hub : Nat) (θ : Rat) (m : Nat) (d : String) :
    d ∈ (analyze_graph g hub θ m).low_density_notes
      ↔ d ∈ noteKeys (g.nodes.map projNode)
          ∧ m ≤ wordCount (textOf (g.nodes.map projNode) d)
          ∧ 0 < wordCount (textOf (g.nodes.map projNode) d)
          ∧ mkRat (outDegE g.edges d) (wordCount (textOf (g.nodes.map projNode) d)) < θ := by
  simp [analyze_graph, analyzeCore, mem_sortStrings, List.mem_filter, and_assoc]

/-- C6: with a positive minimum word count (the guard `word_count > 0` in
the source is then implied by `word_count >= min_word_count`), a document
is flagged low-density iff its word count is at least the minimum and its
out-degree divided by its word count is strictly below the density
threshold; documents below the minimum are exempt. -/
theorem claim_C6 (g : VaultGraph) (hub : Nat) (θ : Rat) (m : Nat) (d : String)
    (hm : 0 < m) :
    (d ∈ (analyze_graph g hub θ m).low_density_notes
      ↔ d ∈ noteKeys (g.nodes.map projNode)
          ∧ m ≤ wordCount (textOf (g.nodes.map projNode) d)
          ∧ mkRat (outDegE g.edges d) (wordCount (textOf (g.nodes.map projNode) d)) < θ) ∧
    mkRat (outDegE g.edges d) (wordCount (textOf (g.nodes.map projNode) d))
      = (outDegE g.edges d : Rat) / (wordCount (textOf (g.nodes.map projNode) d) : Rat) := by
  constructor
  · rw [mem_low_density_iff]
    constructor
    · intro ⟨h1, h2, _, h4⟩
      exact ⟨h1, h2, h4⟩
    · intro ⟨h1, h2, h4⟩
      exact ⟨h1, h2, by omega, h4⟩
  · rw [Rat.mkRat_eq_div]
    push_cast
    rfl

/-- C6 at the spec's concrete scenario: threshold 1/10, minimum word
count 10; a 20-word document with one outbound link (density 1/20) is
flagged; a 5-word document with no links is exempt. -/
theorem claim_C6_witness :
    0 < 10 ∧
    "A.md" ∈ (analyze_graph
        (build_note_graph ["A.md", "B.md"]
          (fun p => if p = "A.md"
            then some "w w w w w w w w w w w w w w w w w w w [[B]]" else some "w w w w w"))
        2 (mkRat 1 10) 10).low_density_notes ∧
    "B.md" ∉ (analyze_graph
        (build_note_graph ["A.md", "B.md"]
          (fun p => if p = "A.md"
            then some "w w w w w w w w w w w w w w w w w w w [[B]]" else some "w w w w w"))
        2 (mkRat 1 10) 10).low_density_notes := by
  refine ⟨by decide, ?_, ?_⟩
  · exact ((claim_C6 (build_note_graph ["A.md", "B.md"]
      (fun p => if p = "A.md"
        then some "w w w w w w w w w w w w w w w w w w w [[B]]" else some "w w w w w"))
      2 (mkRat 1 10) 10 "A.md" (by decide)).1).mpr (by decide)
  · intro hmem
    have h2 := ((claim_C6 (build_note_graph ["A.md", "B.md"]
      (fun p => if p = "A.md"
        then some "w w w w w w w w w w w w w w w w w w w [[B]]" else some "w w w w w"))
      2 (mkRat 1 10) 10 "B.md" (by decide)).1).mp hmem
    revert h2
    decide

/-! ## C3: stable basename ambiguity resolution -/

/-- C3: when the discovered file list is sorted (as `fetch_all_notes`
returns it), a token that misses the exact-path map but has basename
matches resolves to the lexicographically least file with that basename —
the first entry of the basename list — and this depends only on the file
list, never on any fetched content or fetch completion order
(`resolveToken` takes no contents argument at all). -/
theorem claim_C3 (files : List String) (t : String)
    (hs : List.Sorted (fun a b : String => a ≤ b) files)
    (hpath : pathLookup files t = none)
    (q : String) (hq : q ∈ files) (hbq : titleOf q = t) :
    ∃ p, resolveToken files t = some p ∧ p ∈ files ∧ titleOf p = t ∧
      ∀ r ∈ files, titleOf r = t → p ≤ r := by
  have hqf : q ∈ basenameList files t := by
    simp [basenameList, List.mem_filter, hq, hbq]
  cases hl : basenameList files t with
  | nil => rw [hl] at hqf; cases hqf
  | cons p rest =>
    refine ⟨p, ?_, ?_, ?_, ?_⟩
    · rw [resolveToken, hpath, hl]
      rfl
    · have : p ∈ basenameList files t := by rw [hl]; exact List.mem_cons_self p rest
      exact List.mem_of_mem_filter this
    · have : p ∈ basenameList files t := by rw [hl]; exact List.mem_cons_self p rest
      have := List.of_mem_filter this
      simpa using this
    · intro r hr hbr
      have hrf : r ∈ basenameList files t := by
        simp [basenameList, List.mem_filter, hr, hbr]
      have hsf : List.Sorted (fun a b : String => a ≤ b) (basenameList files t) :=
        List.Sorted.filter _ hs
      rw [hl] at hrf hsf
      rcases hrf with _ | hrf2
      · exact le_refl _
      · exact (List.sorted_cons.mp hsf).1 r (by assumption)

/-- C3 at the spec's scenario: `Folder1/X.md` and `Folder2/X.md` in sorted
order; the token `X` resolves to `Folder1/X.md`, the lexicographically
first. -/
theorem claim_C3_witness :
    (List.Sorted (fun a b : String => a ≤ b) ["Folder1/X.md", "Folder2/X.md", "Other.md"] ∧
     pathLookup ["Folder1/X.md", "Folder2/X.md", "Other.md"] "X" = none ∧
     "Folder1/X.md" ∈ ["Folder1/X.md", "Folder2/X.md", "Other.md"] ∧
     titleOf "Folder1/X.md" = "X") ∧
    (∃ p, resolveToken ["Folder1/X.md", "Folder2/X.md", "Other.md"] "X" = some p ∧
      p ∈ ["Folder1/X.md", "Folder2/X.md", "Other.md"] ∧ titleOf p = "X" ∧
      ∀ r ∈ ["Folder1/X.md", "Folder2/X.md", "Other.md"], titleOf r = "X" → p ≤ r) := by
  refine ⟨⟨?_, by decide, by decide, by decide⟩, ?_⟩
  · simp [List.Sorted]
    refine ⟨⟨?_, ?_⟩, ?_⟩ <;> decide
  · exact claim_C3 ["Folder1/X.md", "Folder2/X.md", "Other.md"] "X"
      (by simp [List.Sorted]; refine ⟨⟨?_, ?_⟩, ?_⟩ <;> decide)
      (by decide) "Folder1/X.md" (by decide) (by decide)

/-! ## C4: the empty-vault condition -/

theorem scanLoop_queue_nil (listing : String → Option (List String)) (f : Nat)
    (scanned files : List String) :
    scanLoop listing f [] scanned files = (some files, scanned) := by
  cases f <;> rfl

theorem scanLoop_succ_cons (listing : String → Option (List String)) (f : Nat)
    (d : String) (rest scanned files : List String) :
    scanLoop listing (Nat.succ f) (d :: rest) scanned files =
      (if d ∈ scanned then scanLoop listing f rest scanned files
       else
        match listing d with
        | none => scanLoop listing f rest (scanned ++ [d]) files
        | some items =>
          scanLoop listing f (rest ++ (processItems d items).1) (scanned ++ [d])
            (insertAll files (processItems d items).2)) := rfl

/-- C4 counterexample: with a content source whose root listing is empty,
`fetch_all_notes` takes the `sys.exit(0)` path (`FetchRes.exitZero`): the
run terminates inside discovery, and no empty document list is ever
returned to the downstream stages (the result is not `FetchRes.ok []`,
nor `FetchRes.ok` of anything). -/
theorem claim_C4_counterexample :
    fetch_all_notes (fun _ => some []) 2 = some FetchRes.exitZero ∧
    (∀ l : List String, FetchRes.exitZero ≠ FetchRes.ok l) := by
  refine ⟨by decide, fun l h => FetchRes.noConfusion h⟩

/-- C4 (amended): when discovery finds no markdown file the run ends as a
clean condition — `sys.exit(0)`, modelled by `FetchRes.exitZero` — but it
ends *inside discovery*: the downstream stages are never invoked on the
empty list.  Those stages themselves do accept the empty document set:
building and analyzing an empty file list yields an analysis with zero
totals and empty classification sets, for any contents function and any
thresholds. -/
theorem claim_C4_amended (listing : String → Option (List String))
    (contents : String → Option String) (hub : Nat) (θ : Rat) (m : Nat)
    (hroot : listing "" = some []) :
    fetch_all_notes listing 2 = some FetchRes.exitZero ∧
    analyze_graph (build_note_graph [] contents) hub θ m =
      ⟨0, 0, [], [], [], [], [], [], []⟩ := by
  constructor
  · have hstep : scanLoop listing 2 [""] [] [] = scanLoop listing 1 [] [""] [] := by
      rw [show (2 : Nat) = Nat.succ 1 from rfl, scanLoop_succ_cons,
        if_neg (List.not_mem_nil ""), hroot]
      rfl
    unfold fetch_all_notes
    rw [hstep, scanLoop_queue_nil]
    rfl
  · rfl

/-- C4 at concrete inputs: the empty-root hypothesis holds for the
constant source. -/
theorem claim_C4_amended_witness :
    ((fun _ : String => some ([] : List String)) "" = some []) ∧
    (fetch_all_notes (fun _ => some ([] : List String)) 2 = some FetchRes.exitZero ∧
     analyze_graph (build_note_graph [] (fun _ => some "text")) 3 (mkRat 1 50) 5 =
       ⟨0, 0, [], [], [], [], [], [], []⟩) :=
  ⟨rfl, claim_C4_amended (fun _ => some []) (fun _ => some "text") 3 (mkRat 1 50) 5 rfl⟩

/-! ## C2: placeholder (stub) node identity -/

/-- The node keys of a graph, in insertion order. -/
def nodeKeys (g : VaultGraph) : List String :=
  g.nodes.map (fun e => e.1)

theorem hasNode_iff_mem_nodeKeys (g : VaultGraph) (k : String) :
    hasNode g k = true ↔ k ∈ nodeKeys g := by
  unfold hasNode nodeKeys
  rw [List.any_eq_true]
  constructor
  · rintro ⟨e, he, hdec⟩
    rw [decide_eq_true_eq] at hdec
    exact List.mem_map.mpr ⟨e, he, hdec⟩
  · intro hm
    rcases List.mem_map.mp hm with ⟨e, he, hk⟩
    exact ⟨e, he, by rw [decide_eq_true_eq]; exact hk⟩

theorem keys_mapUpdate (nodes : List (String × NodeData)) (k : String)
    (f : String × NodeData → NodeData) :
    (nodes.map (fun e => if e.1 = k then (e.1, f e) else e)).map (fun e => e.1)
      = nodes.map (fun e => e.1) := by
  induction nodes with
  | nil => rfl
  | cons e rest ih =>
    simp only [List.map_cons, ih]
    split <;> rfl

theorem nodeKeys_setContent (g : VaultGraph) (k c : String) :
    nodeKeys (setContent g k c) = nodeKeys g := by
  unfold setContent nodeKeys
  exact keys_mapUpdate g.nodes k _

theorem nodeKeys_addNode (g : VaultGraph) (k t : String) :
    nodeKeys (addNode g k t) =
      if hasNode g k then nodeKeys g else nodeKeys g ++ [k] := by
  unfold addNode nodeKeys
  split
  · simp only [keys_mapUpdate]
  · simp

theorem nodeKeys_ensureNode (g : VaultGraph) (k : String) :
    nodeKeys (ensureNode g k) =
      if hasNode g k then nodeKeys g else nodeKeys g ++ [k] := by
  unfold ensureNode nodeKeys
  split <;> simp

theorem nodeKeys_stubEnsure (g : VaultGraph) (k : String) :
    nodeKeys (stubEnsure g k) =
      if hasNode g k then nodeKeys g else nodeKeys g ++ [k] := by
  unfold stubEnsure nodeKeys
  split <;> simp

theorem nodup_guarded_append (g : VaultGraph) (k : String)
    (h : (nodeKeys g).Nodup) :
    (if hasNode g k then nodeKeys g else nodeKeys g ++ [k]).Nodup := by
  split
  · exact h
  · rename_i hk
    have : k ∉ nodeKeys g := by
      intro hmem
      exact hk ((hasNode_iff_mem_nodeKeys g k).mpr hmem)
    simp [List.nodup_append, h, this]

theorem nodeKeys_addEdge (g : VaultGraph) (u v : String)
    (h : (nodeKeys g).Nodup) : (nodeKeys (addEdge g u v)).Nodup := by
  rw [addEdge_eqA]
  have h1 : (nodeKeys (ensureNode g u)).Nodup := by
    rw [nodeKeys_ensureNode]
    exact nodup_guarded_append g u h
  have h2 : (nodeKeys (ensureNode (ensureNode g u) v)).Nodup := by
    rw [nodeKeys_ensureNode]
    exact nodup_guarded_append _ v h1
  split
  · exact h2
  · exact h2

theorem nodeKeys_processTokens (files : List String) (d : String) :
    ∀ (ts : List String) (g : VaultGraph), (nodeKeys g).Nodup
      → (nodeKeys (processTokens files d g ts)).Nodup := by
  intro ts
  induction ts with
  | nil => intro g h; exact h
  | cons t ts ih =>
    intro g h
    simp only [processTokens]
    cases hr : resolveToken files t with
    | some tp =>
      simp only
      exact ih _ (nodeKeys_addEdge _ _ _ h)
    | none =>
      simp only
      refine ih _ (nodeKeys_addEdge _ _ _ ?_)
      rw [show nodeKeys (stubEnsure g t)
        = if hasNode g t then nodeKeys g else nodeKeys g ++ [t] from nodeKeys_stubEnsure g t]
      exact nodup_guarded_append g t h

theorem build_note_graph_keys_nodup (files : List String) (contents : String → Option String) :
    (nodeKeys (build_note_graph files contents)).Nodup := by
  unfold build_note_graph
  have h0 : ∀ (fs : List String) (g : VaultGraph), (nodeKeys g).Nodup
      → (nodeKeys (fs.foldl (fun g p => addNode g p "note") g)).Nodup := by
    intro fs
    induction fs with
    | nil => intro g h; exact h
    | cons p fs ih =>
      intro g h
      refine ih _ ?_
      rw [nodeKeys_addNode]
      exact nodup_guarded_append g p h
  have hstep : ∀ (fs : List String) (g : VaultGraph), (nodeKeys g).Nodup
      → (nodeKeys (fs.foldl (buildStep files contents) g)).Nodup := by
    intro fs
    induction fs with
    | nil => intro g h; exact h
    | cons p fs ih =>
      intro g h
      refine ih _ ?_
      unfold buildStep
      cases contents p with
      | none => exact h
      | some c =>
        simp only
        refine nodeKeys_processTokens files p _ _ ?_
        rw [nodeKeys_setContent]
        exact h
  exact hstep files _ (h0 files ⟨[], []⟩ (by simp [nodeKeys]))

theorem mem_nodes_ensureNode (g : VaultGraph) (k : String) (e : String × NodeData)
    (h : e ∈ g.nodes) : e ∈ (ensureNode g k).nodes := by
  unfold ensureNode
  split
  · exact h
  · exact List.mem_append_left _ h

theorem mem_nodes_stubEnsure (g : VaultGraph) (k : String) (e : String × NodeData)
    (h : e ∈ g.nodes) : e ∈ (stubEnsure g k).nodes := by
  unfold stubEnsure
  split
  · exact h
  · exact List.mem_append_left _ h

theorem mem_nodes_addEdge (g : VaultGraph) (u v : String) (e : String × NodeData)
    (h : e ∈ g.nodes) : e ∈ (addEdge g u v).nodes := by
  rw [addEdge_eqA]
  split
  · exact mem_nodes_ensureNode _ _ _ (mem_nodes_ensureNode _ _ _ h)
  · exact mem_nodes_ensureNode _ _ _ (mem_nodes_ensureNode _ _ _ h)

theorem mem_nodes_setContent (g : VaultGraph) (k c : String) (e : String × NodeData)
    (hne : e.1 ≠ k) (h : e ∈ g.nodes) : e ∈ (setContent g k c).nodes := by
  unfold setContent
  have : e = (fun x : String × NodeData =>
      if x.1 = k then (x.1, { x.2 with content := some c }) else x) e := by
    simp only [if_neg hne]
  rw [this]
  exact List.mem_map_of_mem _ h

theorem mem_nodes_processTokens (files : List String) (d : String) :
    ∀ (ts : List String) (g : VaultGraph) (e : String × NodeData),
      e ∈ g.nodes → e ∈ (processTokens files d g ts).nodes := by
  intro ts
  induction ts with
  | nil => intro g e h; exact h
  | cons t ts ih =>
    intro g e h
    simp only [processTokens]
    cases hr : resolveToken files t with
    | some tp =>
      simp only
      exact ih _ _ (mem_nodes_addEdge _ _ _ _ h)
    | none =>
      simp only
      exact ih _ _ (mem_nodes_addEdge _ _ _ _ (mem_nodes_stubEnsure _ _ _ h))

theorem mem_edges_addEdge (g : VaultGraph) (u v : String) (e : String × String)
    (h : e ∈ g.edges) : e ∈ (addEdge g u v).edges := by
  rw [addEdge_eqA]
  split
  · rw [ensureNode_edges, ensureNode_edges]
    exact h
  · rw [ensureNode_edges, ensureNode_edges]
    exact List.mem_append_left _ h

theorem addEdge_mem_self (g : VaultGraph) (u v : String) :
    (u, v) ∈ (addEdge g u v).edges := by
  rw [addEdge_eqA]
  split
  · rename_i hmem
    exact hmem
  · rw [ensureNode_edges, ensureNode_edges]
    simp

theorem stubEnsure_edges (g : VaultGraph) (k : String) :
    (stubEnsure g k).edges = g.edges := by
  unfold stubEnsure
  split <;> rfl

theorem mem_edges_processTokens (files : List String) (d : String) :
    ∀ (ts : List String) (g : VaultGraph) (e : String × String),
      e ∈ g.edges → e ∈ (processTokens files d g ts).edges := by
  intro ts
  induction ts with
  | nil => intro g e h; exact h
  | cons t ts ih =>
    intro g e h
    simp only [processTokens]
    cases hr : resolveToken files t with
    | some tp =>
      simp only
      exact ih _ _ (mem_edges_addEdge _ _ _ _ h)
    | none =>
      simp only
      refine ih _ _ (mem_edges_addEdge _ _ _ _ ?_)
      rw [stubEnsure_edges]
      exact h

theorem mem_edges_buildStep (files : List String) (contents : String → Option String)
    (g : VaultGraph) (p : String) (e : String × String)
    (h : e ∈ g.edges) : e ∈ (buildStep files contents g p).edges := by
  unfold buildStep
  cases contents p with
  | none => exact h
  | some c =>
    simp only
    refine mem_edges_processTokens files p _ _ _ ?_
    rw [setContent_edges]
    exact h

theorem processTokens_mem_edge (files : List String) (d : String) :
    ∀ (ts : List String) (g : VaultGraph) (t : String),
      t ∈ ts → resolveToken files t = none
      → (d, t) ∈ (processTokens files d g ts).edges := by
  intro ts
  induction ts with
  | nil => intro g t ht; cases ht
  | cons t2 ts ih =>
    intro g t ht hres
    simp only [processTokens]
    rcases List.mem_cons.mp ht with h1 | h2
    · subst h1
      rw [hres]
      simp only
      exact mem_edges_processTokens files d ts _ _ (addEdge_mem_self _ _ _)
    · cases hr : resolveToken files t2 with
      | some tp =>
        simp only
        exact ih _ t h2 hres
      | none =>
        simp only
        exact ih _ t h2 hres

theorem hasNode_false_iff (g : VaultGraph) (t : String) :
    hasNode g t = false ↔ t ∉ nodeKeys g := by
  rw [← hasNode_iff_mem_nodeKeys]
  cases h : hasNode g t <;> simp

theorem resolveToken_mem (files : List String) (t p : String)
    (h : resolveToken files t = some p) : p ∈ files := by
  unfold resolveToken at h
  cases hp : pathLookup files t with
  | some q =>
    rw [hp] at h
    simp only at h
    injection h with h
    subst h
    unfold pathLookup lastLookup at hp
    have hq := List.mem_of_getLast?_eq_some hp
    rcases List.mem_map.mp hq with ⟨e, he, hq2⟩
    rcases List.mem_map.mp (List.mem_of_mem_filter he) with ⟨f, hf, hq3⟩
    rw [← hq2, ← hq3]
    exact hf
  | none =>
    rw [hp] at h
    simp only at h
    have := List.mem_of_mem_head? (show p ∈ (basenameList files t).head? by rw [h]; rfl)
    exact List.mem_of_mem_filter this

/-- The invariant carried along construction: either the stub node for
label `t` already exists, or no node with key `t` exists yet. -/
def StubP (t : String) (g : VaultGraph) : Prop :=
  (t, (⟨"stub", none⟩ : NodeData)) ∈ g.nodes ∨ hasNode g t = false

theorem StubP_ensureNode (g : VaultGraph) (k t : String) (hk : k ≠ t)
    (h : StubP t g) : StubP t (ensureNode g k) := by
  cases h with
  | inl hm => exact Or.inl (mem_nodes_ensureNode _ _ _ hm)
  | inr hn =>
    right
    rw [hasNode_false_iff] at hn ⊢
    rw [nodeKeys_ensureNode]
    split
    · exact hn
    · intro hmem
      rcases List.mem_append.mp hmem with h1 | h2
      · exact hn h1
      · rw [List.mem_singleton] at h2
        exact hk h2.symm

theorem StubP_stubEnsure_ne (g : VaultGraph) (k t : String) (hk : k ≠ t)
    (h : StubP t g) : StubP t (stubEnsure g k) := by
  cases h with
  | inl hm => exact Or.inl (mem_nodes_stubEnsure _ _ _ hm)
  | inr hn =>
    right
    rw [hasNode_false_iff] at hn ⊢
    rw [nodeKeys_stubEnsure]
    split
    · exact hn
    · intro hmem
      rcases List.mem_append.mp hmem with h1 | h2
      · exact hn h1
      · rw [List.mem_singleton] at h2
        exact hk h2.symm

theorem stubEnsure_self_mem (g : VaultGraph) (t : String) (h : StubP t g) :
    (t, (⟨"stub", none⟩ : NodeData)) ∈ (stubEnsure g t).nodes := by
  unfold stubEnsure
  split
  · rename_i htrue
    cases h with
    | inl hm => exact hm
    | inr hn => rw [htrue] at hn; cases hn
  · simp

theorem StubP_addEdge (g : VaultGraph) (u v t : String) (hu : u ≠ t) (hv : v ≠ t)
    (h : StubP t g) : StubP t (addEdge g u v) := by
  have h2 : StubP t (ensureNode (ensureNode g u) v) :=
    StubP_ensureNode _ _ _ hv (StubP_ensureNode _ _ _ hu h)
  rw [addEdge_eqA]
  split
  · exact h2
  · exact h2

theorem mem_nodes_addEdge_of_mem (g : VaultGraph) (u v t : String)
    (h : (t, (⟨"stub", none⟩ : NodeData)) ∈ g.nodes) :
    (t, (⟨"stub", none⟩ : NodeData)) ∈ (addEdge g u v).nodes :=
  mem_nodes_addEdge g u v _ h

theorem StubP_processTokens (files : List String) (d t : String)
    (hd : d ∈ files) (hnf : t ∉ files) :
    ∀ (ts : List String) (g : VaultGraph), StubP t g
      → StubP t (processTokens files d g ts) := by
  have hdt : d ≠ t := fun h => hnf (h ▸ hd)
  intro ts
  induction ts with
  | nil => intro g h; exact h
  | cons t2 ts ih =>
    intro g h
    simp only [processTokens]
    cases hr : resolveToken files t2 with
    | some tp =>
      simp only
      have htp : tp ≠ t := fun he => hnf (he ▸ resolveToken_mem files t2 tp hr)
      exact ih _ (StubP_addEdge _ _ _ _ hdt htp h)
    | none =>
      simp only
      by_cases ht2 : t2 = t
      · subst ht2
        refine ih _ (Or.inl (mem_nodes_addEdge_of_mem _ _ _ _ ?_))
        exact stubEnsure_self_mem g t2 h
      · exact ih _ (StubP_addEdge _ _ _ _ hdt ht2 (StubP_stubEnsure_ne _ _ _ ht2 h))

theorem processTokens_stub_mem (files : List String) (d t : String)
    (hd : d ∈ files) (hnf : t ∉ files) (hres : resolveToken files t = none) :
    ∀ (ts : List String) (g : VaultGraph), t ∈ ts → StubP t g
      → (t, (⟨"stub", none⟩ : NodeData)) ∈ (processTokens files d g ts).nodes := by
  intro ts
  induction ts with
  | nil => intro g ht; cases ht
  | cons t2 ts ih =>
    intro g ht h
    simp only [processTokens]
    rcases List.mem_cons.mp ht with h1 | h2
    · subst h1
      rw [hres]
      simp only
      exact mem_nodes_processTokens files d ts _ _
        (mem_nodes_addEdge_of_mem _ _ _ _ (stubEnsure_self_mem g t h))
    · cases hr : resolveToken files t2 with
      | some tp =>
        simp only
        have hdt : d ≠ t := fun he => hnf (he ▸ hd)
        have htp : tp ≠ t := fun he => hnf (he ▸ resolveToken_mem files t2 tp hr)
        exact ih _ h2 (StubP_addEdge _ _ _ _ hdt htp h)
      | none =>
        simp only
        have hdt : d ≠ t := fun he => hnf (he ▸ hd)
        by_cases ht2 : t2 = t
        · subst ht2
          exact ih _ h2 (Or.inl (mem_nodes_addEdge_of_mem _ _ _ _ (stubEnsure_self_mem g _ h)))
        · exact ih _ h2 (StubP_addEdge _ _ _ _ hdt ht2 (StubP_stubEnsure_ne _ _ _ ht2 h))

theorem StubP_setContent (g : VaultGraph) (k c t : String) (hk : k ≠ t)
    (h : StubP t g) : StubP t (setContent g k c) := by
  cases h with
  | inl hm => exact Or.inl (mem_nodes_setContent _ _ _ _ (by simp; exact fun he => hk he.symm) hm)
  | inr hn =>
    right
    rw [hasNode_false_iff] at hn ⊢
    rw [nodeKeys_setContent]
    exact hn

theorem StubP_buildStep (files : List String) (contents : String → Option String)
    (g : VaultGraph) (p t : String) (hp : p ∈ files) (hnf : t ∉ files)
    (h : StubP t g) : StubP t (buildStep files contents g p) := by
  have hpt : p ≠ t := fun he => hnf (he ▸ hp)
  unfold buildStep
  cases contents p with
  | none => exact h
  | some c =>
    simp only
    exact StubP_processTokens files p t hp hnf _ _ (StubP_setContent g p c t hpt h)

theorem stub_mem_buildStep (files : List String) (contents : String → Option String)
    (g : VaultGraph) (p t : String) (hpt : p ≠ t)
    (h : (t, (⟨"stub", none⟩ : NodeData)) ∈ g.nodes) :
    (t, (⟨"stub", none⟩ : NodeData)) ∈ (buildStep files contents g p).nodes := by
  unfold buildStep
  cases contents p with
  | none => exact h
  | some c =>
    simp only
    exact mem_nodes_processTokens files p _ _ _
      (mem_nodes_setContent _ _ _ _ (by simp; exact fun he => hpt he.symm) h)

theorem build_fold_stub_mono (files : List String) (contents : String → Option String)
    (t : String) (hnf : t ∉ files) :
    ∀ (fs : List String) (g : VaultGraph), (∀ p ∈ fs, p ∈ files)
      → (t, (⟨"stub", none⟩ : NodeData)) ∈ g.nodes
      → (t, (⟨"stub", none⟩ : NodeData)) ∈ (fs.foldl (buildStep files contents) g).nodes := by
  intro fs
  induction fs with
  | nil => intro g _ h; exact h
  | cons p fs ih =>
    intro g hps h
    have hpt : p ≠ t := fun he => hnf (he ▸ hps p (List.mem_cons_self p fs))
    exact ih _ (fun q hq => hps q (List.mem_cons_of_mem p hq))
      (stub_mem_buildStep files contents g p t hpt h)

theorem build_fold_edges_mono (files : List String) (contents : String → Option String) :
    ∀ (fs : List String) (g : VaultGraph) (e : String × String), e ∈ g.edges
      → e ∈ (fs.foldl (buildStep files contents) g).edges := by
  intro fs
  induction fs with
  | nil => intro g e h; exact h
  | cons p fs ih =>
    intro g e h
    exact ih _ e (mem_edges_buildStep files contents g p e h)

theorem build_fold_stub_and_edge (files : List String) (contents : String → Option String)
    (t : String) (hnf : t ∉ files) (hres : resolveToken files t = none) :
    ∀ (fs : List String) (g : VaultGraph), (∀ p ∈ fs, p ∈ files) → StubP t g
      → ∀ d c, d ∈ fs → contents d = some c → t ∈ wikilinkFindall c.toList
      → (t, (⟨"stub", none⟩ : NodeData)) ∈ (fs.foldl (buildStep files contents) g).nodes
        ∧ (d, t) ∈ (fs.foldl (buildStep files contents) g).edges := by
  intro fs
  induction fs with
  | nil =>
    intro g _ _ d c hd
    cases hd
  | cons p fs ih =>
    intro g hps hP d c hd hc ht
    rcases List.mem_cons.mp hd with h1 | h2
    · subst h1
      have hdf : d ∈ files := hps d (List.mem_cons_self d fs)
      have hdt : d ≠ t := fun he => hnf (he ▸ hdf)
      have hstep : (t, (⟨"stub", none⟩ : NodeData)) ∈ (buildStep files contents g d).nodes
          ∧ (d, t) ∈ (buildStep files contents g d).edges := by
        unfold buildStep
        rw [hc]
        simp only
        constructor
        · exact processTokens_stub_mem files d t hdf hnf hres _ _ ht
            (StubP_setContent g d c t hdt hP)
        · exact processTokens_mem_edge files d _ _ t ht hres
      constructor
      · exact build_fold_stub_mono files contents t hnf fs _
          (fun q hq => hps q (List.mem_cons_of_mem d hq)) hstep.1
      · exact build_fold_edges_mono files contents fs _ _ hstep.2
    · refine ih _ (fun q hq => hps q (List.mem_cons_of_mem p hq)) ?_ d c h2 hc ht
      exact StubP_buildStep files contents g p t (hps p (List.mem_cons_self p fs)) hnf hP

theorem addAllNotes_keys_sub (files : List String) :
    ∀ k, k ∈ nodeKeys (addAllNotes files) → k ∈ files := by
  unfold addAllNotes
  have H : ∀ (fs : List String) (g : VaultGraph) (k : String),
      k ∈ nodeKeys (fs.foldl (fun g p => addNode g p "note") g)
      → k ∈ nodeKeys g ∨ k ∈ fs := by
    intro fs
    induction fs with
    | nil => intro g k h; exact Or.inl h
    | cons p fs ih =>
      intro g k h
      rcases ih (addNode g p "note") k h with h1 | h2
      · rw [nodeKeys_addNode] at h1
        by_cases hp : hasNode g p = true
        · rw [if_pos hp] at h1
          exact Or.inl h1
        · rw [if_neg hp] at h1
          rcases List.mem_append.mp h1 with h3 | h4
          · exact Or.inl h3
          · rw [List.mem_singleton] at h4
            exact Or.inr (h4 ▸ List.mem_cons_self p fs)
      · exact Or.inr (List.mem_cons_of_mem p h2)
  intro k h
  rcases H files ⟨[], []⟩ k h with h1 | h2
  · simp [nodeKeys] at h1
  · exact h2

/-- C2 counterexample: in a vault with the single document `A.md`, the
token `A.md` (the full identifier, extension included) matches neither the
exact-path map (whose key is `A`) nor the basename map (key `A`), yet no
placeholder is produced: `graph.has_node("A.md")` finds the *document*
node, so the edge is attached to the existing document node and the
analysis reports no stubs at all. -/
theorem claim_C2_counterexample :
    resolveToken ["A.md"] "A.md" = none ∧
    wikilinkFindall "x [[A.md]]".toList = ["A.md"] ∧
    ((build_note_graph ["A.md"] (fun _ => some "x [[A.md]]")).nodes.filter
      (fun e => decide (e.2.ntype = "stub"))) = [] ∧
    (analyze_graph (build_note_graph ["A.md"] (fun _ => some "x [[A.md]]"))
      2 (mkRat 1 10) 1).stubs = [] ∧
    ("A.md", "A.md") ∈ (build_note_graph ["A.md"] (fun _ => some "x [[A.md]]")).edges ∧
    ("A.md", (⟨"note", some "x [[A.md]]"⟩ : NodeData))
      ∈ (build_note_graph ["A.md"] (fun _ => some "x [[A.md]]")).nodes := by
  refine ⟨by decide, by decide, by decide, by decide, by decide, by decide⟩

/-- C2 (amended): an unresolved wikilink token is linked by an edge to a
node keyed by the verbatim token text; a `"stub"` placeholder node is
created for it unless the graph already has a node with that exact key
(in particular, a document node whose full identifier equals the token is
reused instead of a placeholder).  When no document's identifier equals
the token, the result graph contains the stub node for the label, every
occurrence of the label in every document yields an edge to that same
verbatim key, and the graph's node keys are duplicate-free, so there can
never be two placeholder nodes with the same label. -/
theorem claim_C2_amended (files : List String) (contents : String → Option String)
    (d c t : String) (hd : d ∈ files) (hc : contents d = some c)
    (ht : t ∈ wikilinkFindall c.toList)
    (hres : resolveToken files t = none) (hnf : t ∉ files) :
    (nodeKeys (build_note_graph files contents)).Nodup ∧
    (d, t) ∈ (build_note_graph files contents).edges ∧
    (t, (⟨"stub", none⟩ : NodeData)) ∈ (build_note_graph files contents).nodes := by
  have hP0 : StubP t (addAllNotes files) := by
    right
    rw [hasNode_false_iff]
    intro hk
    exact hnf (addAllNotes_keys_sub files t hk)
  have h := build_fold_stub_and_edge files contents t hnf hres files (addAllNotes files)
    (fun p hp => hp) hP0 d c hd hc ht
  exact ⟨build_note_graph_keys_nodup files contents, h.2, h.1⟩

/-- C2 at a concrete input, also exercising the case-sensitivity edge
case: the vault has `Foo.md`, whose text links `[[foo]]`; the token
`foo` differs from the basename `Foo` only in case, resolves to nothing,
and produces the stub node `foo`. -/
theorem claim_C2_witness :
    ("Foo.md" ∈ ["Foo.md"] ∧ (fun _ : String => some "see [[foo]] and [[foo]]") "Foo.md"
        = some "see [[foo]] and [[foo]]" ∧
      "foo" ∈ wikilinkFindall "see [[foo]] and [[foo]]".toList ∧
      resolveToken ["Foo.md"] "foo" = none ∧ "foo" ∉ ["Foo.md"]) ∧
    ((nodeKeys (build_note_graph ["Foo.md"] (fun _ => some "see [[foo]] and [[foo]]"))).Nodup ∧
      ("Foo.md", "foo") ∈ (build_note_graph ["Foo.md"]
        (fun _ => some "see [[foo]] and [[foo]]")).edges ∧
      ("foo", (⟨"stub", none⟩ : NodeData)) ∈ (build_note_graph ["Foo.md"]
        (fun _ => some "see [[foo]] and [[foo]]")).nodes) := by
  refine ⟨⟨by decide, rfl, by decide, by decide, by decide⟩, ?_⟩
  exact claim_C2_amended ["Foo.md"] (fun _ => some "see [[foo]] and [[foo]]")
    "Foo.md" "see [[foo]] and [[foo]]" "foo" (by decide) rfl (by decide) (by decide) (by decide)

/-! ## C8: a failed fetch behaves like empty text -/

/-- The observable projection of a graph's nodes. -/
def projNodes (g : VaultGraph) : List PNode :=
  g.nodes.map projNode

theorem nodeKeys_eq_proj (g : VaultGraph) :
    nodeKeys g = (projNodes g).map (fun p => p.key) := by
  unfold nodeKeys projNodes projNode
  rw [List.map_map]
  rfl

theorem hasNode_eq_decide_mem (g : VaultGraph) (k : String) :
    hasNode g k = decide (k ∈ nodeKeys g) := by
  by_cases hm : k ∈ nodeKeys g
  · rw [(hasNode_iff_mem_nodeKeys g k).mpr hm]
    simp [hm]
  · rw [(hasNode_false_iff g k).mpr hm]
    simp [hm]

theorem hasNode_eq_of_proj (g1 g2 : VaultGraph) (k : String)
    (h : projNodes g1 = projNodes g2) : hasNode g1 k = hasNode g2 k := by
  rw [hasNode_eq_decide_mem, hasNode_eq_decide_mem, nodeKeys_eq_proj, nodeKeys_eq_proj, h]

theorem projNodes_ensureNode (g : VaultGraph) (k : String) :
    projNodes (ensureNode g k) =
      if hasNode g k then projNodes g else projNodes g ++ [⟨k, "", ""⟩] := by
  unfold ensureNode projNodes
  split <;> simp [projNode]

theorem projNodes_stubEnsure (g : VaultGraph) (k : String) :
    projNodes (stubEnsure g k) =
      if hasNode g k then projNodes g else projNodes g ++ [⟨k, "stub", ""⟩] := by
  unfold stubEnsure projNodes
  split <;> simp [projNode]

theorem projNodes_setContent (g : VaultGraph) (k c : String) :
    projNodes (setContent g k c) =
      (projNodes g).map (fun p => if p.key = k then ⟨k, p.ntype, c⟩ else p) := by
  unfold setContent projNodes
  rw [List.map_map, List.map_map]
  apply List.map_congr_left
  intro e _
  by_cases he : e.1 = k
  · simp [projNode, he]
  · simp [projNode, he]

theorem projNodes_addEdge (g : VaultGraph) (u v : String) :
    projNodes (addEdge g u v) = projNodes (ensureNode (ensureNode g u) v) := by
  rw [addEdge_eqA]
  split
  · rfl
  · rfl

theorem addEdge_edges_eq (g : VaultGraph) (u v : String) :
    (addEdge g u v).edges =
      if (u, v) ∈ g.edges then g.edges else g.edges ++ [(u, v)] := by
  rw [addEdge_eqA]
  split <;> rename_i hmem <;> rw [ensureNode_edges, ensureNode_edges] at hmem ⊢
  · rw [if_pos hmem]
  · rw [if_neg hmem]

/-- The relation preserved between the failed-fetch build and the
empty-text build: equal edges and equal observable nodes. -/
def RProj (g1 g2 : VaultGraph) : Prop :=
  g1.edges = g2.edges ∧ projNodes g1 = projNodes g2

theorem RProj_addEdge (g1 g2 : VaultGraph) (u v : String) (h : RProj g1 g2) :
    RProj (addEdge g1 u v) (addEdge g2 u v) := by
  obtain ⟨he, hp⟩ := h
  have hu := hasNode_eq_of_proj g1 g2 u hp
  have hpe : projNodes (ensureNode g1 u) = projNodes (ensureNode g2 u) := by
    rw [projNodes_ensureNode, projNodes_ensureNode, hu, hp]
  have hv := hasNode_eq_of_proj (ensureNode g1 u) (ensureNode g2 u) v hpe
  have hpe2 : projNodes (ensureNode (ensureNode g1 u) v)
      = projNodes (ensureNode (ensureNode g2 u) v) := by
    rw [projNodes_ensureNode (ensureNode g1 u) v, projNodes_ensureNode (ensureNode g2 u) v,
      hv, hpe]
  constructor
  · rw [addEdge_edges_eq, addEdge_edges_eq, he]
  · rw [projNodes_addEdge, projNodes_addEdge, hpe2]

theorem RProj_stubEnsure (g1 g2 : VaultGraph) (t : String) (h : RProj g1 g2) :
    RProj (stubEnsure g1 t) (stubEnsure g2 t) := by
  obtain ⟨he, hp⟩ := h
  constructor
  · rw [stubEnsure_edges, stubEnsure_edges]
    exact he
  · rw [projNodes_stubEnsure, projNodes_stubEnsure, hasNode_eq_of_proj g1 g2 t hp, hp]

theorem RProj_setContent (g1 g2 : VaultGraph) (k c : String) (h : RProj g1 g2) :
    RProj (setContent g1 k c) (setContent g2 k c) := by
  obtain ⟨he, hp⟩ := h
  exact ⟨he, by rw [projNodes_setContent, projNodes_setContent, hp]⟩

theorem RProj_processTokens (files : List String) (d : String) :
    ∀ (ts : List String) (g1 g2 : VaultGraph), RProj g1 g2
      → RProj (processTokens files d g1 ts) (processTokens files d g2 ts) := by
  intro ts
  induction ts with
  | nil => intro g1 g2 h; exact h
  | cons t ts ih =>
    intro g1 g2 h
    simp only [processTokens]
    cases hr : resolveToken files t with
    | some tp =>
      simp only
      exact ih _ _ (RProj_addEdge _ _ _ _ h)
    | none =>
      simp only
      exact ih _ _ (RProj_addEdge _ _ _ _ (RProj_stubEnsure _ _ _ h))

/-- Invariant: every observable node with key `d0` has empty text. -/
def QEmpty (d0 : String) (g : VaultGraph) : Prop :=
  ∀ p ∈ projNodes g, p.key = d0 → p.text = ""

theorem QEmpty_ensureNode (d0 : String) (g : VaultGraph) (k : String)
    (h : QEmpty d0 g) : QEmpty d0 (ensureNode g k) := by
  intro p hp hk
  rw [projNodes_ensureNode] at hp
  split at hp
  · exact h p hp hk
  · rcases List.mem_append.mp hp with h1 | h2
    · exact h p h1 hk
    · rw [List.mem_singleton] at h2
      rw [h2]

theorem QEmpty_stubEnsure (d0 : String) (g : VaultGraph) (k : String)
    (h : QEmpty d0 g) : QEmpty d0 (stubEnsure g k) := by
  intro p hp hk
  rw [projNodes_stubEnsure] at hp
  split at hp
  · exact h p hp hk
  · rcases List.mem_append.mp hp with h1 | h2
    · exact h p h1 hk
    · rw [List.mem_singleton] at h2
      rw [h2]

theorem QEmpty_addEdge (d0 : String) (g : VaultGraph) (u v : String)
    (h : QEmpty d0 g) : QEmpty d0 (addEdge g u v) := by
  intro p hp hk
  rw [projNodes_addEdge] at hp
  exact QEmpty_ensureNode d0 _ v (QEmpty_ensureNode d0 g u h) p hp hk

theorem QEmpty_setContent (d0 : String) (g : VaultGraph) (k c : String)
    (h : QEmpty d0 g) (hc : k = d0 → c = "") : QEmpty d0 (setContent g k c) := by
  intro p hp hk
  rw [projNodes_setContent] at hp
  rcases List.mem_map.mp hp with ⟨q, hq, hpq⟩
  by_cases hqk : q.key = k
  · rw [if_pos hqk] at hpq
    rw [← hpq] at hk ⊢
    exact hc hk
  · rw [if_neg hqk] at hpq
    rw [← hpq] at hk ⊢
    exact h q hq hk

theorem QEmpty_processTokens (d0 : String) (files : List String) (d : String) :
    ∀ (ts : List String) (g : VaultGraph), QEmpty d0 g
      → QEmpty d0 (processTokens files d g ts) := by
  intro ts
  induction ts with
  | nil => intro g h; exact h
  | cons t ts ih =>
    intro g h
    simp only [processTokens]
    cases hr : resolveToken files t with
    | some tp =>
      simp only
      exact ih _ (QEmpty_addEdge d0 _ _ _ h)
    | none =>
      simp only
      exact ih _ (QEmpty_addEdge d0 _ _ _ (QEmpty_stubEnsure d0 _ _ h))

theorem textOf_eq_empty_of_QEmpty (d0 : String) (g : VaultGraph) (h : QEmpty d0 g) :
    textOf (projNodes g) d0 = "" := by
  unfold textOf
  cases hf : (projNodes g).find? (fun p => decide (p.key = d0)) with
  | none => rfl
  | some p =>
    have h1 := List.find?_some hf
    rw [decide_eq_true_eq] at h1
    have h2 := List.mem_of_find?_eq_some hf
    show p.text = ""
    exact h p h2 h1

theorem setContent_d0_proj (d0 : String) (g : VaultGraph) (h : QEmpty d0 g) :
    projNodes (setContent g d0 "") = projNodes g := by
  rw [projNodes_setContent]
  have : ∀ p ∈ projNodes g,
      (if p.key = d0 then (⟨d0, p.ntype, ""⟩ : PNode) else p) = p := by
    intro p hp
    by_cases hk : p.key = d0
    · rw [if_pos hk]
      obtain ⟨pk, pn, pt⟩ := p
      simp only at hk
      have ht := h _ hp hk
      simp only at ht
      rw [hk, ht]
    · rw [if_neg hk]
  calc (projNodes g).map (fun p => if p.key = d0 then (⟨d0, p.ntype, ""⟩ : PNode) else p)
      = (projNodes g).map id := List.map_congr_left this
    _ = projNodes g := List.map_id _

theorem edges_processTokens_src (files : List String) (d : String) :
    ∀ (ts : List String) (g : VaultGraph) (e : String × String),
      e ∈ (processTokens files d g ts).edges → e ∈ g.edges ∨ e.1 = d := by
  intro ts
  induction ts with
  | nil => intro g e h; exact Or.inl h
  | cons t ts ih =>
    intro g e h
    simp only [processTokens] at h
    cases hr : resolveToken files t with
    | some tp =>
      rw [hr] at h
      simp only at h
      rcases ih _ e h with h1 | h2
      · rw [addEdge_edges_eq] at h1
        split at h1
        · exact Or.inl h1
        · rcases List.mem_append.mp h1 with h3 | h4
          · exact Or.inl h3
          · rw [List.mem_singleton] at h4
            rw [h4]
            exact Or.inr rfl
      · exact Or.inr h2
    | none =>
      rw [hr] at h
      simp only at h
      rcases ih _ e h with h1 | h2
      · rw [addEdge_edges_eq, stubEnsure_edges] at h1
        split at h1
        · exact Or.inl h1
        · rcases List.mem_append.mp h1 with h3 | h4
          · exact Or.inl h3
          · rw [List.mem_singleton] at h4
            rw [h4]
            exact Or.inr rfl
      · exact Or.inr h2

theorem buildStep_src (files : List String) (c : String → Option String)
    (g : VaultGraph) (p : String) (e : String × String)
    (h : e ∈ (buildStep files c g p).edges) : e ∈ g.edges ∨ e.1 = p := by
  unfold buildStep at h
  cases hc : c p with
  | none =>
    rw [hc] at h
    exact Or.inl h
  | some ct =>
    rw [hc] at h
    simp only at h
    rcases edges_processTokens_src files p _ _ e h with h1 | h2
    · rw [setContent_edges] at h1
      exact Or.inl h1
    · exact Or.inr h2

theorem build_fold_RQ (files : List String) (contents : String → Option String) (d0 : String) :
    ∀ (fs : List String) (g1 g2 : VaultGraph), RProj g1 g2 → QEmpty d0 g2
      → RProj (fs.foldl (buildStep files (fun x => if x = d0 then none else contents x)) g1)
              (fs.foldl (buildStep files (fun x => if x = d0 then some "" else contents x)) g2)
        ∧ QEmpty d0 (fs.foldl (buildStep files (fun x => if x = d0 then some "" else contents x)) g2) := by
  intro fs
  induction fs with
  | nil => intro g1 g2 hR hQ; exact ⟨hR, hQ⟩
  | cons p fs ih =>
    intro g1 g2 hR hQ
    simp only [List.foldl_cons]
    by_cases hp : p = d0
    · subst hp
      have hstep1 : buildStep files (fun x => if x = p then none else contents x) g1 p = g1 := by
        unfold buildStep
        simp
      have hstep2 : buildStep files (fun x => if x = p then some "" else contents x) g2 p
          = setContent g2 p "" := by
        unfold buildStep
        simp only [if_pos rfl]
        rfl
      rw [hstep1, hstep2]
      refine ih g1 (setContent g2 p "") ?_ ?_
      · exact ⟨by rw [setContent_edges]; exact hR.1,
          by rw [setContent_d0_proj p g2 hQ]; exact hR.2⟩
      · exact QEmpty_setContent p g2 p "" hQ (fun _ => rfl)
    · have hc1 : (fun x => if x = d0 then none else contents x) p = contents p := by
        simp [hp]
      have hc2 : (fun x => if x = d0 then some "" else contents x) p = contents p := by
        simp [hp]
      have hstep : ∀ g, buildStep files (fun x => if x = d0 then none else contents x) g p
          = (match contents p with
             | none => g
             | some c => processTokens files p (setContent g p c) (wikilinkFindall c.toList)) := by
        intro g
        unfold buildStep
        rw [hc1]
      have hstep2 : ∀ g, buildStep files (fun x => if x = d0 then some "" else contents x) g p
          = (match contents p with
             | none => g
             | some c => processTokens files p (setContent g p c) (wikilinkFindall c.toList)) := by
        intro g
        unfold buildStep
        rw [hc2]
      rw [hstep g1, hstep2 g2]
      cases hcp : contents p with
      | none =>
        simp only
        exact ih g1 g2 hR hQ
      | some c =>
        simp only
        refine ih _ _ ?_ ?_
        · exact RProj_processTokens files p _ _ _ (RProj_setContent g1 g2 p c hR)
        · exact QEmpty_processTokens d0 files p _ _
            (QEmpty_setContent d0 g2 p c hQ (fun he => absurd he hp))

theorem addAllNotes_content_none (files : List String) :
    ∀ e ∈ (addAllNotes files).nodes, e.2.content = none := by
  unfold addAllNotes
  have H : ∀ (fs : List String) (g : VaultGraph),
      (∀ e ∈ g.nodes, e.2.content = none)
      → ∀ e ∈ (fs.foldl (fun g p => addNode g p "note") g).nodes, e.2.content = none := by
    intro fs
    induction fs with
    | nil => intro g h; exact h
    | cons p fs ih =>
      intro g h
      refine ih _ ?_
      intro e he
      unfold addNode at he
      by_cases hn : hasNode g p = true
      · simp only [if_pos hn] at he
        rcases List.mem_map.mp he with ⟨q, hq, hpq⟩
        by_cases hk : q.1 = p
        · rw [if_pos hk] at hpq
          rw [← hpq]
          exact h q hq
        · rw [if_neg hk] at hpq
          rw [← hpq]
          exact h q hq
      · simp only [if_neg hn] at he
        rcases List.mem_append.mp he with h1 | h2
        · exact h e h1
        · rw [List.mem_singleton] at h2
          rw [h2]
  intro e he
  exact H files ⟨[], []⟩ (by intro e h; cases h) e he

theorem QEmpty_addAllNotes (d0 : String) (files : List String) :
    QEmpty d0 (addAllNotes files) := by
  intro p hp _
  rcases List.mem_map.mp hp with ⟨e, he, hpe⟩
  rw [← hpe]
  show e.2.content.getD "" = ""
  rw [addAllNotes_content_none files e he]
  rfl

theorem fold_no_src (files : List String) (contents : String → Option String) (d0 : String) :
    ∀ (fs : List String) (g : VaultGraph), (∀ e ∈ g.edges, e.1 ≠ d0)
      → ∀ e ∈ (fs.foldl (buildStep files (fun x => if x = d0 then none else contents x)) g).edges,
          e.1 ≠ d0 := by
  intro fs
  induction fs with
  | nil => intro g h; exact h
  | cons p fs ih =>
    intro g h
    simp only [List.foldl_cons]
    refine ih _ ?_
    intro e he
    by_cases hp : p = d0
    · subst hp
      have hstep : buildStep files (fun x => if x = p then none else contents x) g p = g := by
        unfold buildStep
        simp
      rw [hstep] at he
      exact h e he
    · rcases buildStep_src files _ g p e he with h1 | h2
      · exact h e h1
      · rw [h2]
        exact hp

theorem analyze_graph_eq_core (g : VaultGraph) (hub : Nat) (θ : Rat) (m : Nat) :
    analyze_graph g hub θ m = analyzeCore (projNodes g) g.edges hub θ m := rfl

theorem addAllNotes_edges (files : List String) : (addAllNotes files).edges = [] := by
  unfold addAllNotes
  have H : ∀ (fs : List String) (g : VaultGraph),
      (fs.foldl (fun g p => addNode g p "note") g).edges = g.edges := by
    intro fs
    induction fs with
    | nil => intro g; rfl
    | cons p fs ih =>
      intro g
      rw [List.foldl_cons, ih, addNode_edges]
  rw [H]

/-- C8: a document whose fetch fails (`contents d0 = none`) contributes
exactly as if its text were empty: the two builds have identical edge
lists and identical analysis results for every parameter choice, the
failed document has zero outbound edges, and its observable word count is
0.  The run is a total function of its inputs — a single failed fetch
never aborts construction. -/
theorem claim_C8 (files : List String) (contents : String → Option String) (d0 : String)
    (hub : Nat) (θ : Rat) (m : Nat) :
    analyze_graph (build_note_graph files (fun x => if x = d0 then none else contents x))
        hub θ m
      = analyze_graph (build_note_graph files (fun x => if x = d0 then some "" else contents x))
        hub θ m ∧
    (build_note_graph files (fun x => if x = d0 then none else contents x)).edges
      = (build_note_graph files (fun x => if x = d0 then some "" else contents x)).edges ∧
    outDegE (build_note_graph files
      (fun x => if x = d0 then none else contents x)).edges d0 = 0 ∧
    wordCount (textOf (projNodes (build_note_graph files
      (fun x => if x = d0 then none else contents x))) d0) = 0 := by
  have hRQ := build_fold_RQ files contents d0 files (addAllNotes files) (addAllNotes files)
    ⟨rfl, rfl⟩ (QEmpty_addAllNotes d0 files)
  have hR : RProj (build_note_graph files (fun x => if x = d0 then none else contents x))
      (build_note_graph files (fun x => if x = d0 then some "" else contents x)) := hRQ.1
  have hQ2 : QEmpty d0 (build_note_graph files (fun x => if x = d0 then some "" else contents x)) :=
    hRQ.2
  have hQ1 : QEmpty d0 (build_note_graph files (fun x => if x = d0 then none else contents x)) := by
    intro p hp hk
    rw [hR.2] at hp
    exact hQ2 p hp hk
  refine ⟨?_, hR.1, ?_, ?_⟩
  · rw [analyze_graph_eq_core, analyze_graph_eq_core, hR.1, hR.2]
  · have hsrc : ∀ e ∈ (build_note_graph files
        (fun x => if x = d0 then none else contents x)).edges, e.1 ≠ d0 :=
      fold_no_src files contents d0 files (addAllNotes files)
        (by intro e he; rw [addAllNotes_edges] at he; cases he)
    unfold outDegE
    rw [List.length_eq_zero, List.filter_eq_nil_iff]
    intro e he
    simp only [decide_eq_true_eq]
    exact hsrc e he
  · rw [textOf_eq_empty_of_QEmpty d0 _ hQ1]
    rfl

/-! ## C7: the mention (untapped-potential) report -/

theorem filter_pairs_nil (f : String → String) (k : String) :
    ∀ l : List String, (∀ v ∈ l, f v ≠ k)
      → (l.map (fun u => (f u, u))).filter (fun e => decide (e.1 = k)) = [] := by
  intro l
  induction l with
  | nil => intro _; rfl
  | cons u us ih =>
    intro h
    rw [List.map_cons, List.filter_cons]
    have hd : (decide (((f u, u) : String × String).1 = k)) = false := by
      simp only [decide_eq_false_iff_not]
      exact h u (List.mem_cons_self u us)
    rw [hd]
    simp only [Bool.false_eq_true, if_false]
    exact ih (fun v hv => h v (List.mem_cons_of_mem u hv))

theorem lastLookup_pairs (f : String → String) :
    ∀ (l : List String), ((l.map f).Nodup) → ∀ t ∈ l,
      lastLookup (l.map (fun u => (f u, u))) (f t) = some t := by
  intro l
  induction l with
  | nil => intro _ t ht; cases ht
  | cons u us ih =>
    intro hnd t ht
    rw [List.map_cons, List.nodup_cons] at hnd
    obtain ⟨hfu, hnds⟩ := hnd
    rcases List.mem_cons.mp ht with h1 | h2
    · subst h1
      unfold lastLookup
      rw [List.map_cons, List.filter_cons]
      have hd : (decide (((f t, t) : String × String).1 = f t)) = true := by simp
      rw [hd]
      simp only [if_true]
      rw [filter_pairs_nil f (f t) us
        (fun v hv hfv => hfu (hfv ▸ List.mem_map_of_mem f hv))]
      rfl
    · have hne2 : f u ≠ f t := fun he => hfu (he ▸ List.mem_map_of_mem f h2)
      unfold lastLookup
      rw [List.map_cons, List.filter_cons]
      have hd : (decide (((f u, u) : String × String).1 = f t)) = false := by
        simp only [decide_eq_false_iff_not]
        exact hne2
      rw [hd]
      simp only [Bool.false_eq_true, if_false]
      exact ih hnds t h2

theorem autoPairs_eq (pnodes : List PNode)
    (hinj : ((titlesList pnodes).map lowerStr).Nodup) :
    autoPairs pnodes = (titlesList pnodes).map (fun t => (lowerStr t, t)) := by
  unfold autoPairs lowerPairs
  rw [List.map_map]
  have hfst : (titlesList pnodes).map
      ((fun e : String × String => e.1) ∘ (fun t => (lowerStr t, t)))
      = (titlesList pnodes).map lowerStr := rfl
  rw [hfst, List.dedup_eq_self.mpr hinj, List.map_map]
  apply List.map_congr_left
  intro t htl
  show (lowerStr t, (lastLookup (lowerPairs pnodes) (lowerStr t)).getD "") = (lowerStr t, t)
  unfold lowerPairs
  rw [lastLookup_pairs lowerStr (titlesList pnodes) hinj t htl]
  rfl

theorem lowerStr_eq_empty_iff (t : String) : lowerStr t = "" ↔ t = "" := by
  constructor
  · intro h
    have h2 := congrArg String.toList h
    have h3 : t.toList.map Char.toLower = [] := h2
    rw [List.map_eq_nil_iff] at h3
    cases t with
    | mk data =>
      simp only [String.toList] at h3
      rw [h3]
  · intro h
    rw [h]
    rfl

theorem foundTitles_eq (pnodes : List PNode) (text : String)
    (hinj : ((titlesList pnodes).map lowerStr).Nodup)
    (hne : ∀ t ∈ titlesList pnodes, t ≠ "") :
    foundTitles pnodes text
      = (titlesList pnodes).filter
          (fun t => occursIn (lowerStr t).toList (lowerStr text).toList) := by
  unfold foundTitles
  rw [autoPairs_eq pnodes hinj, List.filter_map, List.map_map]
  have hsnd : ((titlesList pnodes).filter
        ((fun kv : String × String =>
          decide (kv.1 ≠ "") && occursIn kv.1.toList (lowerStr text).toList)
          ∘ (fun t => (lowerStr t, t)))).map
        ((fun kv : String × String => kv.2) ∘ (fun t => (lowerStr t, t)))
      = ((titlesList pnodes).filter
        ((fun kv : String × String =>
          decide (kv.1 ≠ "") && occursIn kv.1.toList (lowerStr text).toList)
          ∘ (fun t => (lowerStr t, t)))).map id := rfl
  rw [hsnd, List.map_id]
  apply List.filter_congr
  intro t htl
  show (decide (lowerStr t ≠ "") && occursIn (lowerStr t).toList (lowerStr text).toList)
    = occursIn (lowerStr t).toList (lowerStr text).toList
  have : lowerStr t ≠ "" := fun he => hne t htl ((lowerStr_eq_empty_iff t).mp he)
  simp [this]

theorem lookup_filterMap_none (F : String → Option (List String)) (d : String) :
    ∀ notes : List String, d ∉ notes
      → (notes.filterMap (fun x => (F x).map (fun v => (x, v)))).lookup d = none := by
  intro notes
  induction notes with
  | nil => intro _; rfl
  | cons x xs ih =>
    intro hd
    have hdx : d ≠ x := fun h => hd (h ▸ List.mem_cons_self x xs)
    have hdxs : d ∉ xs := fun h => hd (List.mem_cons_of_mem x h)
    rw [List.filterMap_cons]
    cases hF : F x with
    | none =>
      simp only [Option.map_none']
      exact ih hdxs
    | some v =>
      simp only [Option.map_some']
      rw [List.lookup_cons]
      have : (d == x) = false := by
        simp only [beq_eq_false_iff_ne, ne_eq]
        exact hdx
      rw [this]
      simp only [Bool.false_eq_true, if_false]
      exact ih hdxs

theorem lookup_filterMap_mem (F : String → Option (List String)) (d : String) :
    ∀ notes : List String, notes.Nodup → d ∈ notes
      → (notes.filterMap (fun x => (F x).map (fun v => (x, v)))).lookup d = F d := by
  intro notes
  induction notes with
  | nil => intro _ hd; cases hd
  | cons x xs ih =>
    intro hnd hd
    rw [List.nodup_cons] at hnd
    obtain ⟨hx, hnds⟩ := hnd
    rw [List.filterMap_cons]
    rcases List.mem_cons.mp hd with h1 | h2
    · subst h1
      cases hF : F d with
      | none =>
        simp only [Option.map_none']
        rw [lookup_filterMap_none F d xs hx]
      | some v =>
        simp only [Option.map_some']
        rw [List.lookup_cons]
        simp
    · have hdx : d ≠ x := fun h => hx (h ▸ h2)
      cases hF : F x with
      | none =>
        simp only [Option.map_none']
        exact ih hnds h2
      | some v =>
        simp only [Option.map_some']
        rw [List.lookup_cons]
        have : (d == x) = false := by
          simp only [beq_eq_false_iff_ne, ne_eq]
          exact hdx
        rw [this]
        simp only [Bool.false_eq_true, if_false]
        exact ih hnds h2

/-- The mention report exactly as C7 words it: the titles found by
case-insensitive substring matching over the document's text, minus the
titles of its current outbound edge targets, minus its own title, sorted;
present only when non-empty; absent whenever the text is empty or was
never fetched. -/
def mentionReportSpec (g : VaultGraph) (d : String) : Option (List String) :=
  let text := textOf (projNodes g) d
  let cand := (titlesList (projNodes g)).filter (fun t =>
    decide (t ∉ linkTitles g.edges d) && decide (t ≠ titleOf d)
      && occursIn (lowerStr t).toList (lowerStr text).toList)
  if text = "" then none
  else if cand.isEmpty then none else some (sortStrings cand)

theorem untappedList_eq_filterMap (pnodes : List PNode) (edges : List (String × String)) :
    untappedList pnodes edges
      = (noteKeys pnodes).filterMap (fun x =>
          ((fun x => if (mentionsFor pnodes edges x).isEmpty then none
            else some (sortStrings (mentionsFor pnodes edges x))) x).map (fun v => (x, v))) := by
  unfold untappedList
  apply List.filterMap_congr
  intro x _
  by_cases h : (mentionsFor pnodes edges x).isEmpty
  · simp [h]
  · simp [h]

/-- C7: for every document node, the recorded untapped-potential entry
equals the claim's formula: titles matched case-insensitively as
substrings of the text, minus the titles of current outbound edge
targets, minus the document's own title, sorted, recorded only when
non-empty, with empty or unfetched text skipped.  Hypotheses: node keys
are unique (true of every built graph), and the note titles are non-empty
and pairwise distinct after lower-casing (otherwise the source's
lowercase-keyed dict collapses titles in unspecified set order). -/
theorem claim_C7 (g : VaultGraph) (hub : Nat) (θ : Rat) (m : Nat) (d : String)
    (hk : (nodeKeys g).Nodup)
    (hd : d ∈ noteKeys (projNodes g))
    (hinj : ((titlesList (projNodes g)).map lowerStr).Nodup)
    (hne : ∀ t ∈ titlesList (projNodes g), t ≠ "") :
    (analyze_graph g hub θ m).untapped_potential.lookup d = mentionReportSpec g d := by
  rw [analyze_graph_eq_core]
  have hfield : (analyzeCore (projNodes g) g.edges hub θ m).untapped_potential
      = untappedList (projNodes g) g.edges := rfl
  rw [hfield, untappedList_eq_filterMap]
  have hnodupnotes : (noteKeys (projNodes g)).Nodup := by
    have hsub : (noteKeys (projNodes g)).Sublist (nodeKeys g) := by
      rw [nodeKeys_eq_proj]
      exact List.Sublist.map _ (List.filter_sublist _)
    exact List.Nodup.sublist hsub hk
  rw [lookup_filterMap_mem _ d (noteKeys (projNodes g)) hnodupnotes hd]
  unfold mentionReportSpec mentionsFor
  by_cases htext : textOf (projNodes g) d = ""
  · simp [htext]
  · simp only [if_neg htext]
    rw [foundTitles_eq _ _ hinj hne, List.filter_filter]

/-- C7 at the spec's Dog/Cat scenario: `Dog.md`'s text contains "cat"
(case-insensitively matching the title `Cat`) without a `[[Cat]]` link,
so the report for `Dog.md` is exactly `["Cat"]`. -/
theorem claim_C7_witness :
    ((nodeKeys (build_note_graph ["Cat.md", "Dog.md"]
        (fun p => if p = "Dog.md" then some "I saw a cat today" else some "meow"))).Nodup ∧
     "Dog.md" ∈ noteKeys (projNodes (build_note_graph ["Cat.md", "Dog.md"]
        (fun p => if p = "Dog.md" then some "I saw a cat today" else some "meow"))) ∧
     ((titlesList (projNodes (build_note_graph ["Cat.md", "Dog.md"]
        (fun p => if p = "Dog.md" then some "I saw a cat today" else some "meow")))).map
          lowerStr).Nodup ∧
     (∀ t ∈ titlesList (projNodes (build_note_graph ["Cat.md", "Dog.md"]
        (fun p => if p = "Dog.md" then some "I saw a cat today" else some "meow"))), t ≠ "")) ∧
    (analyze_graph (build_note_graph ["Cat.md", "Dog.md"]
        (fun p => if p = "Dog.md" then some "I saw a cat today" else some "meow"))
        2 (mkRat 1 50) 5).untapped_potential.lookup "Dog.md"
      = mentionReportSpec (build_note_graph ["Cat.md", "Dog.md"]
        (fun p => if p = "Dog.md" then some "I saw a cat today" else some "meow")) "Dog.md" ∧
    mentionReportSpec (build_note_graph ["Cat.md", "Dog.md"]
        (fun p => if p = "Dog.md" then some "I saw a cat today" else some "meow")) "Dog.md"
      = some ["Cat"] := by
  refine ⟨⟨by decide, by decide, by decide, by decide⟩, ?_, by decide⟩
  exact claim_C7 (build_note_graph ["Cat.md", "Dog.md"]
    (fun p => if p = "Dog.md" then some "I saw a cat today" else some "meow"))
    2 (mkRat 1 50) 5 "Dog.md" (by decide) (by decide) (by decide) (by decide)

/-! ## C10: each directory is listed at most once; the traversal finishes -/

theorem scanLoop_trace_nodup (listing : String → Option (List String)) :
    ∀ (fuel : Nat) (queue scanned files : List String), scanned.Nodup
      → ((scanLoop listing fuel queue scanned files).2).Nodup := by
  intro fuel
  induction fuel with
  | zero =>
    intro queue scanned files h
    cases queue with
    | nil => exact h
    | cons d rest => exact h
  | succ f ih =>
    intro queue scanned files h
    cases queue with
    | nil => exact h
    | cons d rest =>
      rw [scanLoop_succ_cons]
      by_cases hd : d ∈ scanned
      · rw [if_pos hd]
        exact ih rest scanned files h
      · rw [if_neg hd]
        have hnd2 : (scanned ++ [d]).Nodup := by
          simp [List.nodup_append, h, hd]
        cases hl : listing d with
        | none => exact ih rest (scanned ++ [d]) files hnd2
        | some items =>
          simp only
          exact ih _ (scanned ++ [d]) _ hnd2

/-- The decreasing measure of the scan loop: unvisited reachable
directories weighted by the branching bound, plus the queue length. -/
def scanMeasure (U : Finset String) (B : Nat) (scanned queue : List String) : Nat :=
  (B + 1) * (U.filter (fun x => x ∉ scanned)).card + queue.length

theorem scanLoop_isSome (listing : String → Option (List String)) (U : Finset String) (B : Nat)
    (hclosed : ∀ d ∈ U, ∀ e ∈ subdirsOf listing d, e ∈ U)
    (hB : ∀ d ∈ U, (subdirsOf listing d).length ≤ B) :
    ∀ (fuel : Nat) (queue scanned files : List String),
      (∀ q ∈ queue, q ∈ U) → scanMeasure U B scanned queue ≤ fuel
      → ((scanLoop listing fuel queue scanned files).1).isSome := by
  intro fuel
  induction fuel with
  | zero =>
    intro queue scanned files hq hm
    cases queue with
    | nil => rfl
    | cons d rest =>
      unfold scanMeasure at hm
      simp only [List.length_cons] at hm
      omega
  | succ f ih =>
    intro queue scanned files hq hm
    cases queue with
    | nil =>
      rw [scanLoop_queue_nil]
      rfl
    | cons d rest =>
      rw [scanLoop_succ_cons]
      by_cases hd : d ∈ scanned
      · rw [if_pos hd]
        refine ih rest scanned files (fun q hq2 => hq q (List.mem_cons_of_mem d hq2)) ?_
        unfold scanMeasure at hm ⊢
        simp only [List.length_cons] at hm
        omega
      · rw [if_neg hd]
        have hdU : d ∈ U := hq d (List.mem_cons_self d rest)
        have hcard : (U.filter (fun x => x ∉ scanned ++ [d])).card + 1
            = (U.filter (fun x => x ∉ scanned)).card := by
          have hset : U.filter (fun x => x ∉ scanned ++ [d])
              = (U.filter (fun x => x ∉ scanned)).erase d := by
            ext x
            simp only [Finset.mem_filter, Finset.mem_erase, List.mem_append,
              List.mem_singleton, not_or]
            tauto
          have hdf : d ∈ U.filter (fun x => x ∉ scanned) :=
            Finset.mem_filter.mpr ⟨hdU, hd⟩
          have hpos : 0 < (U.filter (fun x => x ∉ scanned)).card :=
            Finset.card_pos.mpr ⟨d, hdf⟩
          rw [hset, Finset.card_erase_of_mem hdf]
          omega
        have hmul : (B + 1) * ((U.filter (fun x => x ∉ scanned)).card)
            = (B + 1) * ((U.filter (fun x => x ∉ scanned ++ [d])).card) + (B + 1) := by
          rw [← hcard]
          ring
        cases hl : listing d with
        | none =>
          refine ih rest (scanned ++ [d]) files
            (fun q hq2 => hq q (List.mem_cons_of_mem d hq2)) ?_
          unfold scanMeasure at hm ⊢
          simp only [List.length_cons] at hm
          omega
        | some items =>
          simp only
          refine ih (rest ++ (processItems d items).1) (scanned ++ [d]) _ ?_ ?_
          · intro q hq2
            rcases List.mem_append.mp hq2 with h1 | h2
            · exact hq q (List.mem_cons_of_mem d h1)
            · refine hclosed d hdU q ?_
              unfold subdirsOf
              rw [hl]
              exact h2
          · have hlen : (processItems d items).1.length ≤ B := by
              have hBd := hB d hdU
              unfold subdirsOf at hBd
              rw [hl] at hBd
              exact hBd
            unfold scanMeasure at hm ⊢
            simp only [List.length_cons, List.length_append] at hm ⊢
            omega

/-- C10: (1) the trace of directory-listing invocations (the insertion
order of `scanned_dirs`) is duplicate-free for every fuel, even when the
content source reports the same subdirectory path several times or the
queue holds duplicates — a path is listed at most once per run; (2) with
a finite universe `U` of directory paths that contains the root, is
closed under listed subdirectories, and whose listings each report at
most `B` subdirectory entries, the traversal completes within
`(B + 1) * |U| + 1` iterations. -/
theorem claim_C10 (listing : String → Option (List String)) (U : Finset String) (B : Nat)
    (hroot : "" ∈ U)
    (hclosed : ∀ d ∈ U, ∀ e ∈ subdirsOf listing d, e ∈ U)
    (hB : ∀ d ∈ U, (subdirsOf listing d).length ≤ B) :
    (∀ fuel : Nat, ((scanLoop listing fuel [""] [] []).2).Nodup) ∧
    ((scanLoop listing ((B + 1) * U.card + 1) [""] [] []).1).isSome := by
  constructor
  · intro fuel
    exact scanLoop_trace_nodup listing fuel [""] [] [] List.nodup_nil
  · refine scanLoop_isSome listing U B hclosed hB _ [""] [] [] ?_ ?_
    · intro q hq
      rw [List.mem_singleton] at hq
      rw [hq]
      exact hroot
    · unfold scanMeasure
      have hU : U.filter (fun x => x ∉ ([] : List String)) = U := by
        apply Finset.filter_true_of_mem
        intro x _
        simp
      rw [hU]
      simp

/-- C10 at a concrete source that reports the subdirectory `a` twice under
the root: the trace still lists each directory once (`["", "a"]`) and the
traversal completes. -/
theorem claim_C10_witness :
    (("" : String) ∈ ({"", "a"} : Finset String) ∧
     (∀ d ∈ ({"", "a"} : Finset String),
        ∀ e ∈ subdirsOf (fun d => if d = "" then some ["a/", "a/", "b.md"]
          else if d = "a" then some ["c.md"] else some []) d,
        e ∈ ({"", "a"} : Finset String)) ∧
     (∀ d ∈ ({"", "a"} : Finset String),
        (subdirsOf (fun d => if d = "" then some ["a/", "a/", "b.md"]
          else if d = "a" then some ["c.md"] else some []) d).length ≤ 2)) ∧
    ((∀ fuel : Nat, ((scanLoop (fun d => if d = "" then some ["a/", "a/", "b.md"]
        else if d = "a" then some ["c.md"] else some []) fuel [""] [] []).2).Nodup) ∧
     ((scanLoop (fun d => if d = "" then some ["a/", "a/", "b.md"]
        else if d = "a" then some ["c.md"] else some [])
        ((2 + 1) * ({"", "a"} : Finset String).card + 1) [""] [] []).1).isSome) ∧
    (scanLoop (fun d => if d = "" then some ["a/", "a/", "b.md"]
        else if d = "a" then some ["c.md"] else some []) 7 [""] [] []).2 = ["", "a"] := by
  refine ⟨⟨by decide, by decide, by decide⟩, ?_, by decide⟩
  exact claim_C10 (fun d => if d = "" then some ["a/", "a/", "b.md"]
    else if d = "a" then some ["c.md"] else some []) ({"", "a"} : Finset String) 2
    (by decide) (by decide) (by decide)
